import Mathlib

/-!
Verification of the gossamer host's core against its specification.

Each section shallowly embeds one component of the source tree:

* `Cli`       — the command-line entry points (`cmd/gossamer/main.go`).
* `Notify`    — block-state notification channels (`dot/state/notify.go`).
* `HostApi`   — the storage host functions of the WASM runtime host.
* `Babe`      — the BABE block producer (`lib/babe/build.go`).
* `ChildTrie` — child-trie storage (`lib/trie/child_storage.go`).
* `BlockTree` — fork choice and finalisation pruning of the block tree.
* `Trie`      — the Patricia-Merkle trie and its root hash.

Pure Go functions become Lean functions; machine integers are modelled by
`Nat`/`Int`; fallible Go functions return `Option`/`Except`.  External
collaborators (the WASM runtime, SCALE codec, cryptographic primitives)
are passed in as explicit function parameters, so theorems quantify over
them.  Components of the repository whose implementation files are not
part of the extracted subset are modelled from the specification; their
doc comments start with "Modelled from the spec:".
-/

/-- Raw bytes are modelled as lists of naturals. -/
abbrev Bytes := List Nat

namespace Cli

/-- The subset of `cli.Context` consulted by `importStateAction`, together
with the outcomes of its two external collaborators:
`createImportStateConfig` (config creation) and `dot.ImportState`.
`ctx.Int` of a missing flag yields `0`, so a missing `--first-slot` is
indistinguishable from an explicit `0`. -/
structure CliContext where
  stateFlag : String
  headerFlag : String
  firstSlotFlag : Int
  configResult : Except String Unit
  importResult : Except String Unit

/-- Embedding of `importStateAction` (cmd/gossamer/main.go): each missing
flag is rejected in turn, then the external config creation and the
state import run. -/
def importStateAction (ctx : CliContext) : Except String Unit :=
  if ctx.stateFlag = "" then .error "must provide argument to --state"
  else if ctx.headerFlag = "" then .error "must provide argument to --header"
  else if ctx.firstSlotFlag = 0 then .error "must provide argument to --first-slot"
  else
    match ctx.configResult with
    | .error e => .error e
    | .ok _ => ctx.importResult

/-- Embedding of `main`: a failing `app.Run` prints the error to stderr and
exits with code 1; a successful run returns from `main`, exiting with 0.
The result is the pair (exit code, stderr output). -/
def gossamerMain (appRun : Except String Unit) : Nat × Option String :=
  match appRun with
  | .error e => (1, some e)
  | .ok _ => (0, none)

end Cli

namespace Notify

/-- The notification-channel registry of `BlockState`
(dot/state/notify.go).  A Go map keyed by `byte` is modelled as a total
function from `Fin 256` to an optional channel; channels themselves are
opaque and represented by a `Nat` token.  `none` is an absent entry. -/
structure BlockState where
  imported : Fin 256 → Option Nat
  finalised : Fin 256 → Option Nat

/-- Number of registered channels, `len(bs.imported)` in Go. -/
def countRegistered (m : Fin 256 → Option Nat) : Nat :=
  ((List.finRange 256).filter (fun i => (m i).isSome)).length

/-- The `generateID` retry loop draws random bytes until it finds one that
is not yet a key of the map.  The draw order is immaterial to every
caller, so the loop is modelled by the first free identifier in byte
order; `none` when the map is full. -/
def freeID (m : Fin 256 → Option Nat) : Option (Fin 256) :=
  (List.finRange 256).find? (fun i => (m i).isNone)

/-- Embedding of `RegisterImportedChannel`: fails with "channel limit
reached" when 256 channels are registered, otherwise stores the channel
under a fresh one-byte ID and returns that ID. -/
def RegisterImportedChannel (bs : BlockState) (ch : Nat) :
    Except String (Fin 256 × BlockState) :=
  if countRegistered bs.imported = 256 then .error "channel limit reached"
  else
    match freeID bs.imported with
    | none => .error "channel limit reached"
    | some id =>
      .ok (id, { bs with imported := Function.update bs.imported id (some ch) })

/-- Embedding of `RegisterFinalizedChannel`, identical to
`RegisterImportedChannel` but over the finalisation-channel map. -/
def RegisterFinalizedChannel (bs : BlockState) (ch : Nat) :
    Except String (Fin 256 × BlockState) :=
  if countRegistered bs.finalised = 256 then .error "channel limit reached"
  else
    match freeID bs.finalised with
    | none => .error "channel limit reached"
    | some id =>
      .ok (id, { bs with finalised := Function.update bs.finalised id (some ch) })

theorem countRegistered_upper (m : Fin 256 → Option Nat) : countRegistered m ≤ 256 := by
  have h := List.length_filter_le (fun i => (m i).isSome) (List.finRange 256)
  simpa [countRegistered, List.length_finRange] using h

theorem freeID_isSome_of_lt (m : Fin 256 → Option Nat)
    (h : countRegistered m < 256) : (freeID m).isSome := by
  rcases hf : freeID m with _ | id
  · exfalso
    have hall : ∀ i ∈ List.finRange 256, ¬ ((m i).isNone = true) := by
      intro i hi hnone
      have := List.find?_eq_none.mp hf i hi
      simp_all
    have hcount : countRegistered m = 256 := by
      have : (List.finRange 256).filter (fun i => (m i).isSome) = List.finRange 256 := by
        apply List.filter_eq_self.mpr
        intro i hi
        have := hall i hi
        simp only [Option.isNone_iff_eq_none] at this
        simpa [Option.isSome_iff_ne_none] using this
      simp [countRegistered, this, List.length_finRange]
    omega
  · simp

end Notify

namespace Cli

/-- C9: the import-state command returns an error unless `--state`,
`--header` and `--first-slot` are all supplied (a `--first-slot` of 0 is
rejected as if missing), and a command action returning an error makes the
process print it to stderr and exit with code 1, while success exits 0. -/
theorem importState_flags_and_exit_codes (ctx : CliContext) (r : Except String Unit) :
    (ctx.stateFlag = "" ∨ ctx.headerFlag = "" ∨ ctx.firstSlotFlag = 0 →
      ∃ e, importStateAction ctx = .error e) ∧
    (∀ e, r = .error e → gossamerMain r = (1, some e)) ∧
    (r = .ok () → gossamerMain r = (0, none)) := by
  refine ⟨?_, ?_, ?_⟩
  · intro h
    unfold importStateAction
    by_cases hst : ctx.stateFlag = ""
    · exact ⟨"must provide argument to --state", by simp [hst]⟩
    · by_cases hh : ctx.headerFlag = ""
      · exact ⟨"must provide argument to --header", by simp [hst, hh]⟩
      · have hf : ctx.firstSlotFlag = 0 := by tauto
        exact ⟨"must provide argument to --first-slot", by simp [hst, hh, hf]⟩
  · intro e he
    subst he
    rfl
  · intro h
    subst h
    rfl

theorem importState_flags_and_exit_codes_witness :
    ((∃ e, importStateAction ⟨"", "header.json", 10, .ok (), .ok ()⟩ = .error e) ∧
      gossamerMain (.error "boom") = (1, some "boom")) ∧
    gossamerMain (.ok ()) = (0, none) :=
  ⟨⟨(importState_flags_and_exit_codes ⟨"", "header.json", 10, .ok (), .ok ()⟩
        (.error "boom")).1 (Or.inl rfl),
    (importState_flags_and_exit_codes ⟨"", "header.json", 10, .ok (), .ok ()⟩
        (.error "boom")).2.1 "boom" rfl⟩,
   (importState_flags_and_exit_codes ⟨"", "header.json", 10, .ok (), .ok ()⟩
        (.ok ())).2.2 rfl⟩

end Cli

namespace Notify

/-- C10: `RegisterImportedChannel` and `RegisterFinalizedChannel` assign
each subscriber a one-byte channel ID and fail with "channel limit
reached" exactly when 256 channels of that kind are registered, so each
kind has at most 256 subscribers at any time. -/
theorem register_channel_limit (bs : BlockState) (chB chF : Nat) :
    ((∃ e, RegisterImportedChannel bs chB = .error e) ↔
      countRegistered bs.imported = 256) ∧
    ((∃ e, RegisterFinalizedChannel bs chF = .error e) ↔
      countRegistered bs.finalised = 256) ∧
    countRegistered bs.imported ≤ 256 ∧
    countRegistered bs.finalised ≤ 256 ∧
    (∀ id bs', RegisterImportedChannel bs chB = .ok (id, bs') →
      bs'.imported id = some chB) ∧
    (∀ id bs', RegisterFinalizedChannel bs chF = .ok (id, bs') →
      bs'.finalised id = some chF) := by
  have himp : countRegistered bs.imported ≤ 256 := countRegistered_upper _
  have hfin : countRegistered bs.finalised ≤ 256 := countRegistered_upper _
  refine ⟨?_, ?_, himp, hfin, ?_, ?_⟩
  · constructor
    · intro ⟨e, he⟩
      by_contra hne
      have hlt : countRegistered bs.imported < 256 := by omega
      have hfree := freeID_isSome_of_lt bs.imported hlt
      rcases hid : freeID bs.imported with _ | id
      · rw [hid] at hfree; simp at hfree
      · rw [RegisterImportedChannel, if_neg hne, hid] at he
        simp at he
    · intro h
      exact ⟨_, by rw [RegisterImportedChannel, if_pos h]⟩
  · constructor
    · intro ⟨e, he⟩
      by_contra hne
      have hlt : countRegistered bs.finalised < 256 := by omega
      have hfree := freeID_isSome_of_lt bs.finalised hlt
      rcases hid : freeID bs.finalised with _ | id
      · rw [hid] at hfree; simp at hfree
      · rw [RegisterFinalizedChannel, if_neg hne, hid] at he
        simp at he
    · intro h
      exact ⟨_, by rw [RegisterFinalizedChannel, if_pos h]⟩
  · intro id bs' h
    rw [RegisterImportedChannel] at h
    split at h
    · simp at h
    · rcases hid : freeID bs.imported with _ | id0 <;> rw [hid] at h
      · simp at h
      · simp only [Except.ok.injEq, Prod.mk.injEq] at h
        obtain ⟨hids, hbs⟩ := h
        subst hids hbs
        simp [Function.update]
  · intro id bs' h
    rw [RegisterFinalizedChannel] at h
    split at h
    · simp at h
    · rcases hid : freeID bs.finalised with _ | id0 <;> rw [hid] at h
      · simp at h
      · simp only [Except.ok.injEq, Prod.mk.injEq] at h
        obtain ⟨hids, hbs⟩ := h
        subst hids hbs
        simp [Function.update]

set_option maxRecDepth 4000 in
theorem register_channel_limit_witness :
    ∃ bs' : BlockState,
      RegisterImportedChannel ⟨fun _ => none, fun _ => none⟩ 7 = .ok (0, bs') ∧
      bs'.imported 0 = some 7 := by
  refine ⟨_, rfl, ?_⟩
  exact (register_channel_limit ⟨fun _ => none, fun _ => none⟩ 7 7).2.2.2.2.1 0 _ rfl

end Notify

namespace HostApi

/-- Storage backing the host functions: an association list from keys to
values, first binding wins. -/
def assocGet (storage : List (Bytes × Bytes)) (key : Bytes) : Option Bytes :=
  match storage with
  | [] => none
  | (k, v) :: rest => if key = k then some v else assocGet rest key

/-- The single failure mode of the read-with-offset host function. -/
inductive ReadError where
  | outOfBounds
deriving Repr, DecidableEq

/-- Modelled from the spec: the implementation of
`ext_storage_read_version_1` is not part of the extracted sources (only
its tests are).  Per the spec it reads at most `bufferSize` bytes of the
stored value starting at `offset`, fails with OutOfBounds when
`offset > value.len`, and returns "absent" (not an error) when the key is
missing. -/
def ext_storage_read (storage : List (Bytes × Bytes)) (key : Bytes)
    (offset bufferSize : Nat) : Except ReadError (Option Bytes) :=
  match assocGet storage key with
  | none => .ok none
  | some v =>
    if offset > v.length then .error .outOfBounds
    else .ok (some ((v.drop offset).take bufferSize))

/-- Modelled from the spec: `ext_storage_get_version_1` is not part of the
extracted sources.  It returns the stored value, or "absent" when the key
is missing; it has no error outcome at all, as its return type shows. -/
def ext_storage_get (storage : List (Bytes × Bytes)) (key : Bytes) : Option Bytes :=
  assocGet storage key

/-- C7: for a stored key with value `v`, `ext_storage_read` fails with
OutOfBounds exactly when `offset > v.len`, and otherwise returns the
requested slice; reads of a missing key return absent rather than an
error (for `ext_storage_read` and `ext_storage_get` alike). -/
theorem ext_storage_read_out_of_bounds (storage : List (Bytes × Bytes))
    (key : Bytes) (offset bufferSize : Nat) :
    (∀ v, assocGet storage key = some v →
      ((ext_storage_read storage key offset bufferSize = .error .outOfBounds) ↔
        offset > v.length) ∧
      (offset ≤ v.length →
        ext_storage_read storage key offset bufferSize =
          .ok (some ((v.drop offset).take bufferSize)))) ∧
    (assocGet storage key = none →
      ext_storage_read storage key offset bufferSize = .ok none ∧
      ext_storage_get storage key = none) := by
  constructor
  · intro v hv
    constructor
    · simp only [ext_storage_read, hv]
      constructor
      · intro h
        by_contra hle
        rw [if_neg hle] at h
        exact Except.noConfusion h
      · intro h
        rw [if_pos h]
    · intro h
      simp only [ext_storage_read, hv]
      rw [if_neg (by omega)]
  · intro h
    simp [ext_storage_read, ext_storage_get, h]

theorem ext_storage_read_out_of_bounds_witness :
    (ext_storage_read [([1], [10, 11, 12])] [1] 4 8 = .error .outOfBounds) ∧
    (ext_storage_read [([1], [10, 11, 12])] [1] 1 8 = .ok (some [11, 12])) ∧
    (ext_storage_read [([1], [10, 11, 12])] [2] 0 8 = .ok none) := by
  refine ⟨?_, ?_, ?_⟩
  · exact ((ext_storage_read_out_of_bounds [([1], [10, 11, 12])] [1] 4 8).1
      [10, 11, 12] rfl).1.mpr (by decide)
  · have h := ((ext_storage_read_out_of_bounds [([1], [10, 11, 12])] [1] 1 8).1
      [10, 11, 12] rfl).2 (by decide)
    simpa using h
  · exact ((ext_storage_read_out_of_bounds [([1], [10, 11, 12])] [2] 0 8).2 rfl).1

end HostApi

namespace Babe

/-- Classification of a non-nil `determineErr` result
(lib/babe/errors.go, external to the extracted subset): either a
`DispatchOutcomeError` (the module call failed after the extrinsic was
admitted) or any other error (a transaction-validity failure). -/
inductive ExtrinsicError where
  | dispatchOutcome
  | invalid
deriving Repr, DecidableEq

/-- A pooled transaction (lib/transaction); only the raw extrinsic matters
here.  Go's nil slice is `none`. -/
structure ValidTransaction where
  extrinsic : Option Bytes
deriving Repr, DecidableEq

/-- Embedding of `buildBlockExtrinsics` (lib/babe/build.go).  The slot
wall clock is modelled by `fuel`: one unit per loop iteration, and
`hasSlotEnded` holds when it reaches zero.  `applyExtrinsic` is the
runtime call `BlockBuilder_apply_extrinsic` (`none` is a host-level
error); `determineErr` classifies its returned bytes. -/
def buildBlockExtrinsics (applyExtrinsic : Bytes → Option Bytes)
    (determineErr : Bytes → Option ExtrinsicError) :
    Nat → List ValidTransaction → List ValidTransaction
  | 0, _ => []
  | _ + 1, [] => []
  | fuel + 1, txn :: pool =>
    match txn.extrinsic with
    | none => buildBlockExtrinsics applyExtrinsic determineErr fuel pool
    | some ext =>
      match applyExtrinsic ext with
      | none => buildBlockExtrinsics applyExtrinsic determineErr fuel pool
      | some ret =>
        match determineErr ret with
        | some .invalid => buildBlockExtrinsics applyExtrinsic determineErr fuel pool
        | some .dispatchOutcome =>
          txn :: buildBlockExtrinsics applyExtrinsic determineErr fuel pool
        | none => txn :: buildBlockExtrinsics applyExtrinsic determineErr fuel pool

/-- Follows the spec's words: a popped extrinsic stays in the block when
its application succeeds or fails with a dispatch-outcome error, and is
discarded on a host-level failure or any other (invalidity) error. -/
def specKeepsExtrinsic (applyExtrinsic : Bytes → Option Bytes)
    (determineErr : Bytes → Option ExtrinsicError) (txn : ValidTransaction) : Bool :=
  match txn.extrinsic with
  | none => false
  | some ext =>
    match applyExtrinsic ext with
    | none => false
    | some ret =>
      match determineErr ret with
      | some .invalid => false
      | _ => true

/-- C5: draining the pool during block assembly processes one pooled
transaction per loop iteration until the slot ends (`fuel` iterations) or
the pool is empty, keeping exactly those whose application succeeds or
fails with a dispatch-outcome error and discarding those with any other
application error. -/
theorem buildBlockExtrinsics_filter (applyExtrinsic : Bytes → Option Bytes)
    (determineErr : Bytes → Option ExtrinsicError)
    (fuel : Nat) (pool : List ValidTransaction) :
    buildBlockExtrinsics applyExtrinsic determineErr fuel pool =
      (pool.take fuel).filter (specKeepsExtrinsic applyExtrinsic determineErr) := by
  induction fuel generalizing pool with
  | zero => simp [buildBlockExtrinsics]
  | succ n ih =>
    cases pool with
    | nil => simp [buildBlockExtrinsics]
    | cons txn rest =>
      rw [buildBlockExtrinsics, List.take_succ_cons, List.filter_cons]
      cases hext : txn.extrinsic with
      | none => simp [specKeepsExtrinsic, hext, ih]
      | some ext =>
        cases happ : applyExtrinsic ext with
        | none => simp [specKeepsExtrinsic, hext, happ, ih]
        | some ret =>
          cases hdet : determineErr ret with
          | none => simp [specKeepsExtrinsic, hext, happ, hdet, ih]
          | some e =>
            cases e with
            | dispatchOutcome => simp [specKeepsExtrinsic, hext, happ, hdet, ih]
            | invalid => simp [specKeepsExtrinsic, hext, happ, hdet, ih]

/-- The inherent data assembled by `buildBlockInherents`: the `timstap0`
(unix-seconds timestamp), `babeslot` (slot number) and `finalnum`
(finalised block number) inherents, in the order they are set. -/
structure InherentsData where
  timstap0 : Nat
  babeslot : Nat
  finalnum : Nat
deriving Repr, DecidableEq

/-- The external collaborators of `buildBlockInherents`: the SCALE codec
and the two runtime calls.  `none` models a host-level (Go `error ≠ nil`)
failure of the call or of decoding. -/
structure InherentEnv where
  encodeInherents : InherentsData → Bytes
  inherentExtrinsicsCall : Bytes → Option Bytes
  decodeExtrinsics : Bytes → Option (List Bytes)
  encodeExtrinsic : Bytes → Bytes
  applyExtrinsicCall : Bytes → Option Bytes

/-- The error outcomes of `buildBlockInherents`. -/
inductive InherentError where
  | hostCallFailed
  | applyReturnedNonZero (ret : Bytes)
deriving Repr, DecidableEq

/-- The loop at the end of `buildBlockInherents`: each decoded inherent is
SCALE-encoded and applied via `BlockBuilder_apply_extrinsic`; a host-level
failure or a return different from `[0, 0]` aborts with an error. -/
def applyInherentExtrinsics (env : InherentEnv) : List Bytes → Option InherentError
  | [] => none
  | ext :: rest =>
    match env.applyExtrinsicCall (env.encodeExtrinsic ext) with
    | none => some .hostCallFailed
    | some ret =>
      if ret = [0, 0] then applyInherentExtrinsics env rest
      else some (.applyReturnedNonZero ret)

/-- Embedding of `buildBlockInherents` (lib/babe/build.go): set the
timestamp, babe-slot and finalised-number inherents, SCALE-encode them,
call `BlockBuilder_inherent_extrinsics`, decode the returned extrinsics,
apply each one, and return the decoded extrinsics on success. -/
def buildBlockInherents (env : InherentEnv) (now slotNumber finalizedNumber : Nat) :
    Except InherentError (List Bytes) :=
  let idata : InherentsData := ⟨now, slotNumber, finalizedNumber⟩
  match env.inherentExtrinsicsCall (env.encodeInherents idata) with
  | none => .error .hostCallFailed
  | some inherentExts =>
    match env.decodeExtrinsics inherentExts with
    | none => .error .hostCallFailed
    | some exts =>
      match applyInherentExtrinsics env exts with
      | some e => .error e
      | none => .ok exts

theorem applyInherentExtrinsics_eq_none (env : InherentEnv) (exts : List Bytes)
    (hsome : ∀ ext ∈ exts, (env.applyExtrinsicCall (env.encodeExtrinsic ext)).isSome) :
    applyInherentExtrinsics env exts = none ↔
      ∀ ext ∈ exts, env.applyExtrinsicCall (env.encodeExtrinsic ext) = some [0, 0] := by
  induction exts with
  | nil => simp [applyInherentExtrinsics]
  | cons ext rest ih =>
    have hs := hsome ext (by simp)
    rcases happ : env.applyExtrinsicCall (env.encodeExtrinsic ext) with _ | ret
    · rw [happ] at hs; simp at hs
    · simp only [applyInherentExtrinsics, happ]
      by_cases hret : ret = [0, 0]
      · subst hret
        rw [if_pos rfl]
        rw [ih (fun e he => hsome e (List.mem_cons_of_mem _ he))]
        constructor
        · intro h e he
          rcases List.mem_cons.mp he with he | he
          · subst he; exact happ
          · exact h e he
        · intro h e he
          exact h e (List.mem_cons_of_mem _ he)
      · rw [if_neg hret]
        simp only [reduceCtorEq, false_iff, not_forall]
        refine ⟨ext, by simp, ?_⟩
        rw [happ]
        intro hcon
        exact hret (by injection hcon)

/-- C6: assembling the block inherents SCALE-encodes the timestamp,
babe-slot and finalised-number inherent data, calls
`BlockBuilder_inherent_extrinsics` on that encoding, applies each decoded
inherent via `BlockBuilder_apply_extrinsic`, and, with the host-level
calls succeeding, fails exactly when some inherent application returns a
result other than `[0, 0]`; on success it returns exactly the decoded
inherent extrinsics. -/
theorem buildBlockInherents_spec (env : InherentEnv)
    (now slotNumber finalizedNumber : Nat) (raw : Bytes) (exts : List Bytes)
    (h1 : env.inherentExtrinsicsCall
      (env.encodeInherents ⟨now, slotNumber, finalizedNumber⟩) = some raw)
    (h2 : env.decodeExtrinsics raw = some exts)
    (h3 : ∀ ext ∈ exts, (env.applyExtrinsicCall (env.encodeExtrinsic ext)).isSome) :
    ((∃ e, buildBlockInherents env now slotNumber finalizedNumber = .error e) ↔
      ∃ ext ∈ exts, env.applyExtrinsicCall (env.encodeExtrinsic ext) ≠ some [0, 0]) ∧
    (∀ l, buildBlockInherents env now slotNumber finalizedNumber = .ok l → l = exts) := by
  have hmain : buildBlockInherents env now slotNumber finalizedNumber =
      match applyInherentExtrinsics env exts with
      | some e => .error e
      | none => .ok exts := by
    simp only [buildBlockInherents, h1, h2]
  constructor
  · rw [hmain]
    constructor
    · intro ⟨e, he⟩
      rcases hap : applyInherentExtrinsics env exts with _ | e'
      · rw [hap] at he; exact Except.noConfusion he
      · by_contra hall
        push_neg at hall
        have : applyInherentExtrinsics env exts = none :=
          (applyInherentExtrinsics_eq_none env exts h3).mpr hall
        rw [this] at hap
        exact Option.noConfusion hap
    · intro ⟨ext, hmem, hne⟩
      rcases hap : applyInherentExtrinsics env exts with _ | e'
      · exfalso
        exact hne ((applyInherentExtrinsics_eq_none env exts h3).mp hap ext hmem)
      · exact ⟨e', rfl⟩
  · intro l hl
    rw [hmain] at hl
    rcases hap : applyInherentExtrinsics env exts with _ | e' <;> rw [hap] at hl
    · injection hl with h
      exact h.symm
    · exact Except.noConfusion hl

theorem buildBlockInherents_spec_witness :
    let env : InherentEnv :=
      { encodeInherents := fun _ => [1]
        inherentExtrinsicsCall := fun _ => some [2]
        decodeExtrinsics := fun _ => some [[3]]
        encodeExtrinsic := fun e => e
        applyExtrinsicCall := fun _ => some [1, 0] }
    ∃ e, buildBlockInherents env 5 6 7 = .error e := by
  intro env
  exact (buildBlockInherents_spec env 5 6 7 [2] [[3]] rfl rfl
    (by intro ext _; simp)).1.mpr ⟨[3], by simp, by simp⟩

/-- A digest item (dot/types): tagged by a 4-byte consensus engine ID with
an opaque payload. -/
inductive DigestItem where
  | preRuntime (consensusEngineID : Bytes) (data : Bytes)
  | consensus (consensusEngineID : Bytes) (data : Bytes)
  | seal (consensusEngineID : Bytes) (data : Bytes)
  | other (data : Bytes)
deriving Repr, DecidableEq

/-- The BABE consensus engine ID, the four ASCII bytes of "BABE". -/
def BabeEngineID : Bytes := [66, 65, 66, 69]

/-- A block header (dot/types). -/
structure Header where
  parentHash : Bytes
  stateRoot : Bytes
  extrinsicsRoot : Bytes
  number : Nat
  digest : List DigestItem
deriving Repr, DecidableEq

/-- A block: header plus body (the ordered extrinsics). -/
structure Block where
  header : Header
  body : List Bytes
deriving Repr, DecidableEq

/-- A BABE slot; its wall-clock start and duration are modelled by the
`slotTicks` fuel of the service below. -/
structure Slot where
  number : Nat
deriving Repr, DecidableEq

/-- The BABE header placed in the pre-runtime digest: the proof of
authorship right for the slot. -/
structure BabePrimaryPreDigest where
  authorityIndex : Nat
  slotNumber : Nat
  vrfOutput : Bytes
  vrfProof : Bytes
deriving Repr, DecidableEq

/-- The parts of the BABE `Service` consulted by `buildBlock`, with its
external collaborators (runtime calls, SCALE codec, sr25519 keypair,
Blake2b) as explicit functions.  `none` models a Go `error ≠ nil`.
The runtime state threaded through `InitializeBlock`/`FinalizeBlock` is
implicit: each call's outcome is a field. -/
structure Service where
  slotToProof : Nat → Option (Bytes × Bytes)
  authorityIndex : Nat
  encodeBabePrimaryPreDigest : BabePrimaryPreDigest → Bytes
  initializeBlock : Header → Option Unit
  inherentEnv : InherentEnv
  now : Nat
  finalizedNumber : Nat
  determineErr : Bytes → Option ExtrinsicError
  slotTicks : Nat
  pool : List ValidTransaction
  finalizeBlock : Option Header
  sign : Bytes → Bytes
  blake2b256 : Bytes → Bytes
  encodeHeader : Header → Bytes

/-- `header.Hash()`: the Blake2b-256 hash of the SCALE-encoded header. -/
def headerHash (b : Service) (h : Header) : Bytes :=
  b.blake2b256 (b.encodeHeader h)

/-- The error outcomes of `buildBlock`. -/
inductive BuildBlockError where
  | notAuthorized
  | initializeBlockFailed
  | inherents (e : InherentError)
  | finalizeBlockFailed
  | bodyDecodeFailed
deriving Repr, DecidableEq

/-- Embedding of `buildBlockPreDigest`/`buildBlockBABEPrimaryPreDigest`:
fails with `ErrNotAuthorized` when the slot lottery produced no proof for
this slot, otherwise wraps the encoded BABE header in a pre-runtime
digest item. -/
def buildBlockPreDigest (b : Service) (slot : Slot) :
    Except BuildBlockError DigestItem :=
  match b.slotToProof slot.number with
  | none => .error .notAuthorized
  | some outAndProof =>
    .ok (.preRuntime BabeEngineID (b.encodeBabePrimaryPreDigest
      ⟨b.authorityIndex, slot.number, outAndProof.1, outAndProof.2⟩))

/-- Embedding of `buildBlockSeal`: an sr25519 signature over the Blake2b
hash of the SCALE-encoded header, wrapped in a seal digest item. -/
def buildBlockSeal (b : Service) (header : Header) : DigestItem :=
  .seal BabeEngineID (b.sign (b.blake2b256 (b.encodeHeader header)))

/-- The loop of `extrinsicsToBody`: each included transaction's raw
extrinsic is SCALE-decoded; the source applies `scale.Decode` whose
failure aborts body construction.  The decoded bytes are modelled by the
identity on the stored extrinsic, matching a round-tripping codec. -/
def decodeIncluded : List ValidTransaction → Option (List Bytes)
  | [] => some []
  | tx :: rest =>
    match tx.extrinsic with
    | none => none
    | some e => (decodeIncluded rest).map (e :: ·)

/-- Embedding of `extrinsicsToBody`: the body is the inherent extrinsics
followed by the decoded included transactions. -/
def extrinsicsToBody (inherents : List Bytes) (txs : List ValidTransaction) :
    Option (List Bytes) :=
  (decodeIncluded txs).map (inherents ++ ·)

/-- Embedding of `buildBlock` (lib/babe/build.go): build the pre-digest,
initialise a fresh header for `parent.number + 1`, build and apply the
inherents, drain the transaction pool, finalise the block through the
runtime, restore parent hash and number, append the pre-runtime digest,
then append the seal computed over the header that does not yet contain
it, and assemble the body.  (On a finalisation failure the source also
re-queues the included transactions; the pool state is not tracked
here.) -/
def buildBlock (b : Service) (parent : Header) (slot : Slot) :
    Except BuildBlockError Block :=
  match buildBlockPreDigest b slot with
  | .error e => .error e
  | .ok preDigest =>
    let header0 : Header :=
      { parentHash := headerHash b parent, stateRoot := [], extrinsicsRoot := []
        number := parent.number + 1, digest := [] }
    match b.initializeBlock header0 with
    | none => .error .initializeBlockFailed
    | some _ =>
      match buildBlockInherents b.inherentEnv b.now slot.number b.finalizedNumber with
      | .error e => .error (.inherents e)
      | .ok inherents =>
        let included := buildBlockExtrinsics b.inherentEnv.applyExtrinsicCall
          b.determineErr b.slotTicks b.pool
        match b.finalizeBlock with
        | none => .error .finalizeBlockFailed
        | some fh =>
          let header1 : Header :=
            { fh with parentHash := headerHash b parent, number := parent.number + 1 }
          let header2 : Header := { header1 with digest := header1.digest ++ [preDigest] }
          let sealItem := buildBlockSeal b header2
          let header3 : Header := { header2 with digest := header2.digest ++ [sealItem] }
          match extrinsicsToBody inherents included with
          | none => .error .bodyDecodeFailed
          | some body => .ok { header := header3, body := body }

/-- Number of seal items in a digest. -/
def sealCount : List DigestItem → Nat
  | [] => 0
  | .seal _ _ :: rest => sealCount rest + 1
  | _ :: rest => sealCount rest

theorem sealCount_append (l1 l2 : List DigestItem) :
    sealCount (l1 ++ l2) = sealCount l1 + sealCount l2 := by
  induction l1 with
  | nil => simp [sealCount]
  | cons d rest ih =>
    cases d <;> simp [sealCount, ih] <;> omega

/-- C4: every block the BABE producer assembles in a slot it is authorised
for carries, at the end of its digest, the pre-runtime digest (appended
after `BlockBuilder_finalize_block` returned the header) followed by the
seal; provided the runtime-returned digest carries no seal the result has
exactly one, it is the last item, and its data is the sr25519 signature
over the Blake2b-256 hash of the SCALE-encoded header without that
seal. -/
theorem buildBlock_seal_spec (b : Service) (parent : Header) (slot : Slot)
    (block : Block) (h : buildBlock b parent slot = .ok block)
    (hns : ∀ fh, b.finalizeBlock = some fh → sealCount fh.digest = 0) :
    ∃ fh preData,
      b.finalizeBlock = some fh ∧
      block.header.digest = fh.digest ++
        [DigestItem.preRuntime BabeEngineID preData,
         DigestItem.seal BabeEngineID (b.sign (b.blake2b256 (b.encodeHeader
           { block.header with digest := fh.digest ++
             [DigestItem.preRuntime BabeEngineID preData] })))] ∧
      sealCount block.header.digest = 1 ∧
      block.header.digest.getLast? = some (DigestItem.seal BabeEngineID
        (b.sign (b.blake2b256 (b.encodeHeader
          { block.header with digest := block.header.digest.dropLast })))) := by
  rcases hpre : buildBlockPreDigest b slot with e | preDigest
  · simp only [buildBlock, hpre, reduceCtorEq] at h
  obtain ⟨preData, rfl⟩ : ∃ preData,
      preDigest = DigestItem.preRuntime BabeEngineID preData := by
    rw [buildBlockPreDigest] at hpre
    rcases hsp : b.slotToProof slot.number with _ | op <;> rw [hsp] at hpre
    · exact Except.noConfusion hpre
    · exact ⟨_, by injection hpre with h1; exact h1.symm⟩
  rcases hinit : b.initializeBlock
      { parentHash := headerHash b parent, stateRoot := [], extrinsicsRoot := []
        number := parent.number + 1, digest := [] } with _ | u
  · simp only [buildBlock, hpre, hinit, reduceCtorEq] at h
  rcases hinh : buildBlockInherents b.inherentEnv b.now slot.number b.finalizedNumber
      with e | inherents
  · simp only [buildBlock, hpre, hinit, hinh, reduceCtorEq] at h
  rcases hfin : b.finalizeBlock with _ | fh
  · simp only [buildBlock, hpre, hinit, hinh, hfin, reduceCtorEq] at h
  rcases hbody : extrinsicsToBody inherents (buildBlockExtrinsics
      b.inherentEnv.applyExtrinsicCall b.determineErr b.slotTicks b.pool)
      with _ | body
  · simp only [buildBlock, hpre, hinit, hinh, hfin, hbody, reduceCtorEq] at h
  simp only [buildBlock, hpre, hinit, hinh, hfin, hbody, Except.ok.injEq] at h
  subst h
  have hcount := hns fh hfin
  refine ⟨fh, preData, rfl, ?_, ?_, ?_⟩
  · simp [buildBlockSeal]
  · simp only [sealCount_append, hcount]
    simp [sealCount]
  · simp [buildBlockSeal, List.getLast?_concat, List.dropLast_concat]

/-- Concrete collaborators under which `buildBlock` succeeds, used to
exercise `buildBlock_seal_spec`. -/
def sealWitnessService : Service :=
  { slotToProof := fun _ => some ([], [])
    authorityIndex := 0
    encodeBabePrimaryPreDigest := fun _ => [9]
    initializeBlock := fun _ => some ()
    inherentEnv :=
      { encodeInherents := fun _ => []
        inherentExtrinsicsCall := fun _ => some []
        decodeExtrinsics := fun _ => some []
        encodeExtrinsic := fun e => e
        applyExtrinsicCall := fun _ => some [0, 0] }
    now := 0
    finalizedNumber := 0
    determineErr := fun _ => none
    slotTicks := 0
    pool := []
    finalizeBlock := some { parentHash := [], stateRoot := [], extrinsicsRoot := []
                            number := 0, digest := [] }
    sign := fun s => s
    blake2b256 := fun s => s
    encodeHeader := fun h => [h.number] }

/-- The parent header used alongside `sealWitnessService`. -/
def sealWitnessParent : Header :=
  { parentHash := [], stateRoot := [], extrinsicsRoot := [], number := 0, digest := [] }

theorem buildBlock_seal_spec_witness :
    ∃ block fh preData,
      buildBlock sealWitnessService sealWitnessParent ⟨1⟩ = .ok block ∧
      sealWitnessService.finalizeBlock = some fh ∧
      block.header.digest = fh.digest ++
        [DigestItem.preRuntime BabeEngineID preData,
         DigestItem.seal BabeEngineID (sealWitnessService.sign
           (sealWitnessService.blake2b256 (sealWitnessService.encodeHeader
           { block.header with digest := fh.digest ++
             [DigestItem.preRuntime BabeEngineID preData] })))] ∧
      sealCount block.header.digest = 1 := by
  have h : buildBlock sealWitnessService sealWitnessParent ⟨1⟩ = .ok
      { header := { parentHash := [0], stateRoot := [], extrinsicsRoot := []
                    number := 1
                    digest := [DigestItem.preRuntime BabeEngineID [9],
                               DigestItem.seal BabeEngineID [1]] }
        body := [] } := rfl
  obtain ⟨fh, preData, hfin, hdig, hcount, _⟩ :=
    buildBlock_seal_spec sealWitnessService sealWitnessParent ⟨1⟩ _ h
      (by intro fh hfh; injection hfh with h1; rw [← h1]; rfl)
  exact ⟨_, fh, preData, h, hfin, hdig, hcount⟩

end Babe

namespace ChildTrie

/-- The prefix for all child storage keys: the ASCII bytes of the string
":child_storage:default:". -/
def ChildStorageKeyPrefix : Bytes :=
  [58, 99, 104, 105, 108, 100, 95, 115, 116, 111, 114, 97, 103, 101, 58,
   100, 101, 102, 97, 117, 108, 116, 58]

/-- The trie as seen by the child-storage code (lib/trie): its key-value
entries plus the `childTries` map from a child's root hash to the child
trie.  The radix-tree node structure underlying `Put`/`Get` is developed
in the `Trie` namespace below; here the entry list suffices, since only
the key-value behaviour of `Put`/`Get` is at stake. -/
inductive Trie where
  | mk : List (Bytes × Bytes) → List (Bytes × Trie) → Trie

/-- The key-value entries of the trie. -/
def Trie.entries : Trie → List (Bytes × Bytes)
  | .mk e _ => e

/-- The childTries map of the trie. -/
def Trie.childTries : Trie → List (Bytes × Trie)
  | .mk _ c => c

/-- Update of the main key-value entries, first binding wins. -/
def assocPut (l : List (Bytes × Bytes)) (k v : Bytes) : List (Bytes × Bytes) :=
  match l with
  | [] => [(k, v)]
  | (k0, v0) :: rest => if k = k0 then (k0, v) :: rest else (k0, v0) :: assocPut rest k v

/-- Update of the childTries map (Go map assignment). -/
def childUpdate (l : List (Bytes × Trie)) (k : Bytes) (c : Trie) : List (Bytes × Trie) :=
  match l with
  | [] => [(k, c)]
  | (k0, c0) :: rest => if k = k0 then (k0, c) :: rest else (k0, c0) :: childUpdate rest k c

/-- Lookup in the childTries map (Go map access, `none` for a missing or
nil entry). -/
def childLookup (l : List (Bytes × Trie)) (k : Bytes) : Option Trie :=
  match l with
  | [] => none
  | (k0, c0) :: rest => if k = k0 then some c0 else childLookup rest k

/-- `trie.Put` viewed on the key-value set. -/
def Trie.Put (t : Trie) (k v : Bytes) : Trie :=
  .mk (assocPut t.entries k v) t.childTries

/-- `trie.Get` viewed on the key-value set. -/
def Trie.Get (t : Trie) (k : Bytes) : Option Bytes :=
  HostApi.assocGet t.entries k

/-- Modelled from the spec: `trie.Hash` is the Blake2b-256 root hash, a
pure function of the key-value set.  Blake2b itself is an external
primitive not in the extracted sources; it is modelled by a fixed
deterministic 32-byte digest of the entry list. -/
def trieHashModel (entries : List (Bytes × Bytes)) : Bytes :=
  (List.range 32).map (fun i =>
    (entries.foldl
      (fun acc kv => acc + kv.1.sum * 31 + kv.2.sum * 7 + kv.1.length + kv.2.length) 0
      + i) % 256)

/-- `trie.Hash` of a trie. -/
def Trie.Hash (t : Trie) : Bytes :=
  trieHashModel t.entries

/-- Embedding of `PutChild` (lib/trie/child_storage.go): store the child's
32-byte root hash in the main trie at `ChildStorageKeyPrefix ++ keyToChild`
and record the child under that hash in `childTries`. -/
def PutChild (t : Trie) (keyToChild : Bytes) (child : Trie) : Trie :=
  let childHash := child.Hash
  let key := ChildStorageKeyPrefix ++ keyToChild
  .mk (assocPut t.entries key childHash) (childUpdate t.childTries childHash child)

/-- Embedding of `GetChild`: look up exactly
`ChildStorageKeyPrefix ++ keyToChild` in the main trie and resolve the
stored hash through `childTries`. -/
def GetChild (t : Trie) (keyToChild : Bytes) : Option Trie :=
  match t.Get (ChildStorageKeyPrefix ++ keyToChild) with
  | none => none
  | some childHash => childLookup t.childTries childHash

theorem assocGet_assocPut (l : List (Bytes × Bytes)) (k v : Bytes) :
    HostApi.assocGet (assocPut l k v) k = some v := by
  induction l with
  | nil => simp [assocPut, HostApi.assocGet]
  | cons kv rest ih =>
    obtain ⟨k0, v0⟩ := kv
    by_cases hk : k = k0
    · simp [assocPut, HostApi.assocGet, hk]
    · simp [assocPut, HostApi.assocGet, hk, ih]

theorem childLookup_childUpdate (l : List (Bytes × Trie)) (k : Bytes) (c : Trie) :
    childLookup (childUpdate l k c) k = some c := by
  induction l with
  | nil => simp [childUpdate, childLookup]
  | cons kc rest ih =>
    obtain ⟨k0, c0⟩ := kc
    by_cases hk : k = k0
    · simp [childUpdate, childLookup, hk]
    · simp [childUpdate, childLookup, hk, ih]

/-- C8: `PutChild(n, c)` stores the 32-byte root hash of `c` in the main
trie at the key `ChildStorageKeyPrefix ++ n`, and `GetChild(n)` reads
exactly that key, so it returns the child trie recorded under the stored
hash. -/
theorem PutChild_GetChild_roundtrip (t : Trie) (n : Bytes) (c : Trie) :
    Trie.Get (PutChild t n c) (ChildStorageKeyPrefix ++ n) = some (Trie.Hash c) ∧
    (Trie.Hash c).length = 32 ∧
    GetChild (PutChild t n c) n = some c := by
  have hget : Trie.Get (PutChild t n c) (ChildStorageKeyPrefix ++ n) =
      some (Trie.Hash c) := by
    simp [Trie.Get, PutChild, Trie.entries, assocGet_assocPut]
  refine ⟨hget, ?_, ?_⟩
  · simp [Trie.Hash, trieHashModel]
  · rw [GetChild, hget]
    simp [PutChild, Trie.childTries, childLookup_childUpdate]

end ChildTrie

namespace BlockTree

/-- Modelled from the spec: the block-tree implementation (lib/blocktree
and the block-state methods over it) is not part of the extracted sources;
only dot/state/block_test.go is.  A tree node carries the block hash, the
parent hash (`none` for the finalised root), the block number and the
arrival time.  Hashes, numbers and instants are modelled as naturals; the
spec's deterministic hash ordering is the order on hash values. -/
structure BTNode where
  hash : Nat
  parent : Option Nat
  number : Nat
  arrivalTime : Nat
deriving Repr, DecidableEq

/-- Modelled from the spec: the rooted in-memory tree of headers with
arrival timestamps; the list order records insertion order. -/
structure Tree where
  nodes : List BTNode
deriving Repr, DecidableEq

/-- The hashes present in the tree. -/
def hashes (t : Tree) : List Nat :=
  t.nodes.map (·.hash)

/-- The node with the given hash, if present. -/
def findNode (t : Tree) (h : Nat) : Option BTNode :=
  t.nodes.find? (fun n => n.hash = h)

/-- Modelled from the spec: inserting a block verifies that its parent is
present, its number is the parent's plus one, and its hash is new, then
attaches it to the tree. -/
def addBlock (t : Tree) (b : BTNode) : Option Tree :=
  match b.parent with
  | none => none
  | some ph =>
    match findNode t ph with
    | none => none
    | some p =>
      if b.number = p.number + 1 ∧ b.hash ∉ hashes t then some ⟨t.nodes ++ [b]⟩
      else none

/-- Whether some node of the tree has `n` as its parent. -/
def hasChild (t : Tree) (n : BTNode) : Bool :=
  t.nodes.any (fun c => c.parent = some n.hash)

/-- The leaves of the tree: nodes without children. -/
def leaves (t : Tree) : List BTNode :=
  t.nodes.filter (fun n => ¬ hasChild t n)

/-- Modelled from the spec: the fork-choice ordering on leaves — the
higher block number wins, the earlier arrival time breaks number ties,
and the hash ordering is the final deterministic tie-break. -/
def Better (a b : BTNode) : Prop :=
  b.number < a.number ∨
    (a.number = b.number ∧
      (a.arrivalTime < b.arrivalTime ∨
        (a.arrivalTime = b.arrivalTime ∧ b.hash < a.hash)))

instance (a b : BTNode) : Decidable (Better a b) := by
  unfold Better
  infer_instance

/-- One fold step of the best-head computation. -/
def pickBetter (acc n : BTNode) : BTNode :=
  if Better n acc then n else acc

/-- Modelled from the spec: the best head is the leaf maximising the
fork-choice ordering. -/
def bestBlock (t : Tree) : Option BTNode :=
  match leaves t with
  | [] => none
  | l :: rest => some (rest.foldl pickBetter l)

/-- The parent hash of the node with hash `h`. -/
def parentOf (t : Tree) (h : Nat) : Option Nat :=
  (findNode t h).bind (·.parent)

/-- `k`-fold parent walk starting at hash `h`. -/
def parentIter (t : Tree) : Nat → Nat → Option Nat
  | 0, h => some h
  | k + 1, h =>
    match parentOf t h with
    | none => none
    | some ph => parentIter t k ph

/-- `a` is an ancestor of (or equal to) `b`: some parent walk from `b`
reaches `a`. -/
def IsAncestor (t : Tree) (a b : Nat) : Prop :=
  ∃ k, parentIter t k b = some a

/-- The hash chain from `h` up to the root, computed with explicit fuel
as the implementation walks parent pointers. -/
def ancestorChainAux (t : Tree) : Nat → Nat → List Nat
  | 0, _ => []
  | fuel + 1, h =>
    h :: (match parentOf t h with
          | none => []
          | some ph => ancestorChainAux t fuel ph)

/-- The computed ancestor chain of `h` (including `h` itself).  The Go
code walks parent pointers until it reaches the root; since every parent
step decreases the block number by one, `number + 1` units of fuel make
the bounded walk equivalent to the unbounded one. -/
def ancestorChain (t : Tree) (h : Nat) : List Nat :=
  ancestorChainAux t
    ((match findNode t h with
      | some n => n.number
      | none => 0) + 1) h

/-- The block-state view relevant to finalisation: the block tree plus the
header and body columns of the database (sets of block hashes), and the
latest finalisation round and set ID. -/
structure BlockState where
  bt : Tree
  headerDB : List Nat
  bodyDB : List Nat
  round : Nat
  setID : Nat
deriving Repr, DecidableEq

/-- Modelled from the spec: `SetFinalizedHash(h, round, setID)` requires
`h` to be in the tree (a descendant of the current root), makes `h` the
new root keeping exactly the blocks descended from it, and deletes the
header and body of every block that is neither on the path from the old
root to `h` nor descended from `h`. -/
def SetFinalizedHash (bs : BlockState) (h : Nat) (round setID : Nat) :
    Option BlockState :=
  if (findNode bs.bt h).isSome then
    let keepDB : Nat → Bool := fun x =>
      decide (h ∈ ancestorChain bs.bt x) || decide (x ∈ ancestorChain bs.bt h)
    some
      { bt := ⟨bs.bt.nodes.filter (fun b => decide (h ∈ ancestorChain bs.bt b.hash))⟩
        headerDB := bs.headerDB.filter keepDB
        bodyDB := bs.bodyDB.filter keepDB
        round := round
        setID := setID }
  else none

/-- Trees reachable from a single genesis/root block by valid insertions. -/
inductive Reachable : Tree → Prop where
  | genesis (g : BTNode) (hp : g.parent = none) : Reachable ⟨[g]⟩
  | step (t : Tree) (b : BTNode) (t' : Tree) :
      Reachable t → addBlock t b = some t' → Reachable t'

theorem better_trans {a b c : BTNode} (h1 : Better a b) (h2 : Better b c) :
    Better a c := by
  unfold Better at *
  omega

theorem better_irrefl (a : BTNode) : ¬ Better a a := by
  unfold Better
  omega

theorem not_better_total {a b : BTNode} (h1 : ¬ Better a b) (h2 : ¬ Better b a) :
    a.number = b.number ∧ a.arrivalTime = b.arrivalTime ∧ a.hash = b.hash := by
  unfold Better at *
  omega

theorem not_better_of_not_better_of_not_better {a b c : BTNode}
    (h1 : ¬ Better a b) (h2 : ¬ Better b c) : ¬ Better a c := by
  unfold Better at *
  omega

theorem foldl_pickBetter_mem (a : BTNode) (l : List BTNode) :
    l.foldl pickBetter a = a ∨ l.foldl pickBetter a ∈ l := by
  induction l generalizing a with
  | nil => simp
  | cons n rest ih =>
    rw [List.foldl_cons]
    rcases ih (pickBetter a n) with h | h
    · rw [h]
      unfold pickBetter
      split
      · right; simp
      · left; rfl
    · right; simp [h]

theorem foldl_pickBetter_dominates (a : BTNode) (l : List BTNode) :
    ¬ Better a (l.foldl pickBetter a) ∧
      ∀ x ∈ l, ¬ Better x (l.foldl pickBetter a) := by
  induction l generalizing a with
  | nil => simpa using better_irrefl a
  | cons n rest ih =>
    rw [List.foldl_cons]
    by_cases hna : Better n a
    · have hpb : pickBetter a n = n := by rw [pickBetter, if_pos hna]
      rw [hpb]
      obtain ⟨ihacc, ihmem⟩ := ih n
      refine ⟨?_, ?_⟩
      · intro hc
        exact ihacc (better_trans hna hc)
      · intro x hx
        rcases List.mem_cons.mp hx with rfl | hx
        · exact ihacc
        · exact ihmem x hx
    · have hpb : pickBetter a n = a := by rw [pickBetter, if_neg hna]
      rw [hpb]
      obtain ⟨ihacc, ihmem⟩ := ih a
      refine ⟨ihacc, ?_⟩
      intro x hx
      rcases List.mem_cons.mp hx with rfl | hx
      · exact not_better_of_not_better_of_not_better hna ihacc
      · exact ihmem x hx

theorem bestBlock_mem_dominates {t : Tree} {m : BTNode}
    (h : bestBlock t = some m) :
    m ∈ leaves t ∧ ∀ x ∈ leaves t, ¬ Better x m := by
  rw [bestBlock] at h
  rcases hl : leaves t with _ | ⟨l, rest⟩ <;> rw [hl] at h
  · exact Option.noConfusion h
  · injection h with h
    subst h
    constructor
    · rcases foldl_pickBetter_mem l rest with h | h
      · rw [h]; simp
      · simp [h]
    · intro x hx
      obtain ⟨hacc, hmem⟩ := foldl_pickBetter_dominates l rest
      rcases List.mem_cons.mp hx with rfl | hx
      · exact hacc
      · exact hmem x hx

/-- The basic shape invariants of reachable trees: nonempty, no duplicate
hashes, and every parent pointer resolves to a present node one number
below. -/
theorem reachable_invariant {t : Tree} (hr : Reachable t) :
    t.nodes ≠ [] ∧ (hashes t).Nodup ∧
      ∀ n ∈ t.nodes, ∀ ph, n.parent = some ph →
        ∃ p ∈ t.nodes, p.hash = ph ∧ n.number = p.number + 1 := by
  induction hr with
  | genesis g hp =>
    refine ⟨by simp, by simp [hashes], ?_⟩
    intro n hn ph hph
    simp only [List.mem_singleton] at hn
    subst hn
    rw [hp] at hph
    exact Option.noConfusion hph
  | step t b t' hr hadd ih =>
    obtain ⟨hne, hnd, hclose⟩ := ih
    rw [addBlock] at hadd
    rcases hbp : b.parent with _ | ph <;> simp only [hbp] at hadd
    · exact Option.noConfusion hadd
    rcases hfp : findNode t ph with _ | p <;> simp only [hfp] at hadd
    · exact Option.noConfusion hadd
    by_cases hcond : b.number = p.number + 1 ∧ b.hash ∉ hashes t
    · rw [if_pos hcond] at hadd
      injection hadd with hadd
      subst hadd
      obtain ⟨hnum, hfresh⟩ := hcond
      have hmap : hashes ⟨t.nodes ++ [b]⟩ = hashes t ++ [b.hash] := by
        simp [hashes]
      refine ⟨by simp, ?_, ?_⟩
      · rw [hmap, List.nodup_append]
        refine ⟨hnd, List.nodup_singleton _, ?_⟩
        intro a ha hb
        simp only [List.mem_singleton] at hb
        subst hb
        exact hfresh ha
      · intro n hn ph' hph'
        simp only at hn
        rcases List.mem_append.mp hn with hn | hn
        · obtain ⟨q, hq, hqh, hqn⟩ := hclose n hn ph' hph'
          exact ⟨q, List.mem_append_left _ hq, hqh, hqn⟩
        · simp only [List.mem_singleton] at hn
          subst hn
          rw [hbp] at hph'
          injection hph' with he
          have hpmem := List.mem_of_find?_eq_some hfp
          have hph : p.hash = ph := by
            have := List.find?_some hfp
            simpa using this
          exact ⟨p, List.mem_append_left _ hpmem, hph.trans he, hnum⟩
    · rw [if_neg hcond] at hadd
      exact Option.noConfusion hadd

theorem hash_inj {t : Tree} (hr : Reachable t) {x y : BTNode}
    (hx : x ∈ t.nodes) (hy : y ∈ t.nodes) (hxy : x.hash = y.hash) : x = y :=
  List.inj_on_of_nodup_map (reachable_invariant hr).2.1 hx hy hxy

theorem addBlock_dest {t : Tree} {b : BTNode} {t' : Tree}
    (h : addBlock t b = some t') :
    t'.nodes = t.nodes ++ [b] ∧ b.hash ∉ hashes t ∧
      ∃ ph p, b.parent = some ph ∧ findNode t ph = some p ∧ p ∈ t.nodes ∧
        p.hash = ph ∧ b.number = p.number + 1 := by
  rw [addBlock] at h
  rcases hbp : b.parent with _ | ph <;> simp only [hbp] at h
  · exact Option.noConfusion h
  rcases hfp : findNode t ph with _ | p <;> simp only [hfp] at h
  · exact Option.noConfusion h
  by_cases hcond : b.number = p.number + 1 ∧ b.hash ∉ hashes t
  · rw [if_pos hcond] at h
    injection h with h
    subst h
    refine ⟨rfl, hcond.2, ph, p, rfl, hfp, List.mem_of_find?_eq_some hfp, ?_, hcond.1⟩
    have := List.find?_some hfp
    simpa using this
  · rw [if_neg hcond] at h
    exact Option.noConfusion h

theorem findNode_mem_hashes {t : Tree} {x : Nat} (hx : x ∈ hashes t) :
    ∃ n, findNode t x = some n ∧ n.hash = x := by
  obtain ⟨n, hn, he⟩ := List.mem_map.mp hx
  have hsome : (t.nodes.find? (fun m => m.hash = x)).isSome := by
    rw [List.find?_isSome]
    exact ⟨n, hn, by simp [he]⟩
  rcases hf : t.nodes.find? (fun m => m.hash = x) with _ | m
  · rw [hf] at hsome; simp at hsome
  · refine ⟨m, hf, ?_⟩
    have := List.find?_some hf
    simpa using this

theorem findNode_addBlock_of_mem {t : Tree} {b : BTNode} {t' : Tree}
    (h : addBlock t b = some t') {x : Nat} (hx : x ∈ hashes t) :
    findNode t' x = findNode t x := by
  obtain ⟨hn, _, _⟩ := addBlock_dest h
  rw [findNode, hn, List.find?_append]
  obtain ⟨m, hf, _⟩ := findNode_mem_hashes hx
  rw [findNode] at hf
  rw [hf]
  simp [Option.or, findNode, hf]

theorem parentOf_mem_hashes {t : Tree} (hr : Reachable t) {x ph : Nat}
    (h : parentOf t x = some ph) : ph ∈ hashes t := by
  rw [parentOf] at h
  rcases hf : findNode t x with _ | n <;> rw [hf] at h
  · exact Option.noConfusion h
  · obtain ⟨p, hp, hph, _⟩ :=
      (reachable_invariant hr).2.2 n (List.mem_of_find?_eq_some hf) ph (by simpa using h)
    exact List.mem_map.mpr ⟨p, hp, hph⟩

theorem parentIter_addBlock {t : Tree} {b : BTNode} {t' : Tree}
    (hr : Reachable t) (h : addBlock t b = some t') :
    ∀ k x a, x ∈ hashes t → parentIter t k x = some a → parentIter t' k x = some a := by
  intro k
  induction k with
  | zero => intro x a _ hit; exact hit
  | succ k ih =>
    intro x a hx hit
    rw [parentIter] at hit ⊢
    rcases hp : parentOf t x with _ | ph <;> rw [hp] at hit
    · exact Option.noConfusion hit
    · have hp' : parentOf t' x = some ph := by
        rw [parentOf, findNode_addBlock_of_mem h hx, ← parentOf, hp]
      rw [hp']
      exact ih ph a (parentOf_mem_hashes hr hp) hit

theorem mem_leaves_iff {t : Tree} {x : BTNode} :
    x ∈ leaves t ↔ x ∈ t.nodes ∧ hasChild t x = false := by
  rw [leaves, List.mem_filter]
  simp

theorem hasChild_addBlock {t : Tree} {b : BTNode} {t' : Tree}
    (hr : Reachable t) (h : addBlock t b = some t') :
    (∀ n, hasChild t' n = (hasChild t n || b.parent = some n.hash)) ∧
      hasChild t' b = false := by
  obtain ⟨hn, hfresh, ph, p, hbp, hfp, hpmem, hph, hnum⟩ := addBlock_dest h
  have hany : ∀ n, hasChild t' n = (hasChild t n || b.parent = some n.hash) := by
    intro n
    rw [hasChild, hn, List.any_append, ← hasChild]
    simp [List.any_cons]
  refine ⟨hany, ?_⟩
  rw [hany]
  have h1 : hasChild t b = false := by
    rw [hasChild]
    by_contra hany'
    simp only [Bool.not_eq_false, List.any_eq_true] at hany'
    obtain ⟨c, hc, hcb⟩ := hany'
    simp only [decide_eq_true_eq] at hcb
    obtain ⟨q, hq, hqh, _⟩ := (reachable_invariant hr).2.2 c hc b.hash hcb
    exact hfresh (List.mem_map.mpr ⟨q, hq, hqh⟩)
  have h2 : b.parent ≠ some b.hash := by
    rw [hbp]
    intro hc
    injection hc with hc
    exact hfresh (hc ▸ List.mem_map.mpr ⟨p, hpmem, hph⟩)
  simp [h1, h2]

theorem mem_leaves_addBlock {t : Tree} {b : BTNode} {t' : Tree}
    (hr : Reachable t) (h : addBlock t b = some t') :
    ∀ x, x ∈ leaves t' ↔ ((x ∈ leaves t ∧ b.parent ≠ some x.hash) ∨ x = b) := by
  intro x
  obtain ⟨hn, hfresh, _⟩ := addBlock_dest h
  obtain ⟨hany, hbleaf⟩ := hasChild_addBlock hr h
  rw [mem_leaves_iff, mem_leaves_iff, hn]
  constructor
  · intro ⟨hmem, hnc⟩
    rcases List.mem_append.mp hmem with hmem | hmem
    · left
      rw [hany] at hnc
      simp only [Bool.or_eq_false_iff] at hnc
      refine ⟨⟨hmem, hnc.1⟩, ?_⟩
      intro hc
      rw [hc] at hnc
      simpa using hnc.2
    · right
      simpa using hmem
  · intro hx
    rcases hx with ⟨⟨hmem, hnc⟩, hbp⟩ | rfl
    · refine ⟨List.mem_append_left _ hmem, ?_⟩
      rw [hany, hnc]
      simpa using hbp
    · exact ⟨List.mem_append_right _ (by simp), hbleaf⟩

theorem leaves_ne_nil {t : Tree} (hr : Reachable t) : leaves t ≠ [] := by
  obtain ⟨hne, hnd, hclose⟩ := reachable_invariant hr
  rcases hns : t.nodes with _ | ⟨n0, rest⟩
  · exact absurd hns hne
  have hmem : rest.foldl pickBetter n0 ∈ t.nodes := by
    rw [hns]
    rcases foldl_pickBetter_mem n0 rest with h | h
    · rw [h]; simp
    · simp [h]
  have hdom : ∀ x ∈ t.nodes, ¬ Better x (rest.foldl pickBetter n0) := by
    rw [hns]
    obtain ⟨hacc, hmem'⟩ := foldl_pickBetter_dominates n0 rest
    intro x hx
    rcases List.mem_cons.mp hx with rfl | hx
    · exact hacc
    · exact hmem' x hx
  set m := rest.foldl pickBetter n0 with hm
  have hleaf : hasChild t m = false := by
    by_contra hc
    simp only [Bool.not_eq_false, hasChild, List.any_eq_true, decide_eq_true_eq] at hc
    obtain ⟨c, hcmem, hcp⟩ := hc
    obtain ⟨q, hq, hqh, hqn⟩ := hclose c hcmem m.hash hcp
    have hqm : q = m := hash_inj hr hq hmem hqh
    rw [hqm] at hqn
    exact hdom c hcmem (Or.inl (by omega))
  intro hl
  have : m ∈ leaves t := mem_leaves_iff.mpr ⟨hmem, hleaf⟩
  rw [hl] at this
  simp at this

theorem bestBlock_exists {t : Tree} (hr : Reachable t) :
    ∃ m, bestBlock t = some m := by
  rw [bestBlock]
  rcases hl : leaves t with _ | ⟨l, rest⟩
  · exact absurd hl (leaves_ne_nil hr)
  · exact ⟨_, rfl⟩

theorem bestBlock_unique {t : Tree} {m m' : BTNode} (hr : Reachable t)
    (hm : bestBlock t = some m) (hm' : m' ∈ leaves t)
    (hdom : ∀ x ∈ leaves t, ¬ Better x m') : m = m' := by
  obtain ⟨hmem, hmdom⟩ := bestBlock_mem_dominates hm
  have h1 : ¬ Better m m' := hdom m hmem
  have h2 : ¬ Better m' m := hmdom m' hm'
  obtain ⟨_, _, hh⟩ := not_better_total h1 h2
  exact hash_inj hr (mem_leaves_iff.mp hmem).1 (mem_leaves_iff.mp hm').1 hh

theorem root_isAncestor {t : Tree} (hr : Reachable t) :
    ∀ r ∈ t.nodes, r.parent = none → ∀ n ∈ t.nodes, IsAncestor t r.hash n.hash := by
  induction hr with
  | genesis g hp =>
    intro r hrmem _ n hn
    simp only [List.mem_singleton] at hrmem hn
    subst hrmem
    subst hn
    exact ⟨0, rfl⟩
  | step t b t' hr hadd ih =>
    intro r hrmem hrp n hn
    obtain ⟨hnodes, hfresh, ph, p, hbp, hfp, hpmem, hph, hnum⟩ := addBlock_dest hadd
    rw [hnodes] at hrmem hn
    have hrmem' : r ∈ t.nodes := by
      rcases List.mem_append.mp hrmem with h | h
      · exact h
      · simp only [List.mem_singleton] at h
        subst h
        rw [hbp] at hrp
        exact Option.noConfusion hrp
    rcases List.mem_append.mp hn with hn' | hn'
    · obtain ⟨k, hk⟩ := ih r hrmem' hrp n hn'
      exact ⟨k, parentIter_addBlock hr hadd k n.hash r.hash
        (List.mem_map.mpr ⟨n, hn', rfl⟩) hk⟩
    · simp only [List.mem_singleton] at hn'
      subst hn'
      obtain ⟨k, hk⟩ := ih r hrmem' hrp p hpmem
      refine ⟨k + 1, ?_⟩
      rw [parentIter]
      have hfind : t.nodes.find? (fun m => m.hash = n.hash) = none := by
        rw [List.find?_eq_none]
        intro a ha hc
        simp only [decide_eq_true_eq] at hc
        exact hfresh (List.mem_map.mpr ⟨a, ha, hc⟩)
      have hpo : parentOf t' n.hash = some ph := by
        rw [parentOf, findNode, hnodes, List.find?_append, hfind]
        simp [Option.or, hbp]
      rw [hpo]
      have hlift := parentIter_addBlock hr hadd k p.hash r.hash
        (List.mem_map.mpr ⟨p, hpmem, rfl⟩) hk
      rw [hph] at hlift
      exact hlift

/-- C2: in every reachable block tree the best head exists, is a leaf, is
maximal among all leaves for the (number, earliest-arrival, hash) ordering
(every leaf descends from the root); moreover adding a block that extends
a branch to a strictly greater height than every current leaf makes it
the new best head, while adding a block of the same height as the current
best but a later arrival leaves the best head unchanged. -/
theorem bestBlock_fork_choice (t : Tree) (hr : Reachable t) :
    (∃ m, bestBlock t = some m ∧ m ∈ leaves t ∧ (∀ x ∈ leaves t, ¬ Better x m) ∧
      ∀ r ∈ t.nodes, r.parent = none → IsAncestor t r.hash m.hash) ∧
    (∀ b t', addBlock t b = some t' →
      ((∀ l ∈ leaves t, l.number < b.number) → bestBlock t' = some b) ∧
      (∀ m, bestBlock t = some m → m.number = b.number →
        m.arrivalTime < b.arrivalTime → bestBlock t' = some m)) := by
  constructor
  · obtain ⟨m, hm⟩ := bestBlock_exists hr
    obtain ⟨hmem, hdom⟩ := bestBlock_mem_dominates hm
    exact ⟨m, hm, hmem, hdom, fun r hrmem hrp =>
      root_isAncestor hr r hrmem hrp m (mem_leaves_iff.mp hmem).1⟩
  · intro b t' hadd
    have hr' : Reachable t' := Reachable.step t b t' hr hadd
    have hleaves := mem_leaves_addBlock hr hadd
    constructor
    · intro hlt
      obtain ⟨m', hm'⟩ := bestBlock_exists hr'
      have hbleaf : b ∈ leaves t' := (hleaves b).mpr (Or.inr rfl)
      have hdom : ∀ x ∈ leaves t', ¬ Better x b := by
        intro x hx
        rcases (hleaves x).mp hx with ⟨hxl, _⟩ | rfl
        · have := hlt x hxl
          unfold Better
          omega
        · exact better_irrefl _
      rw [hm', bestBlock_unique hr' hm' hbleaf hdom]
    · intro m hm hnum harr
      obtain ⟨hmem, hdom⟩ := bestBlock_mem_dominates hm
      obtain ⟨m2, hm2⟩ := bestBlock_exists hr'
      obtain ⟨_, _, ph, p, hbp, _, hpmem, hph, hnumb⟩ := addBlock_dest hadd
      have hbpm : b.parent ≠ some m.hash := by
        rw [hbp]
        intro hc
        injection hc with hc
        have hpm : p = m := hash_inj hr hpmem (mem_leaves_iff.mp hmem).1 (hph.trans hc)
        rw [hpm] at hnumb
        omega
      have hmleaf : m ∈ leaves t' := (hleaves m).mpr (Or.inl ⟨hmem, hbpm⟩)
      have hdom' : ∀ x ∈ leaves t', ¬ Better x m := by
        intro x hx
        rcases (hleaves x).mp hx with ⟨hxl, _⟩ | rfl
        · exact hdom x hxl
        · unfold Better
          omega
      rw [hm2, bestBlock_unique hr' hm2 hmleaf hdom']

/-- Genesis block of the concrete reorg scenario. -/
def genW : BTNode := ⟨0, none, 0, 0⟩

/-- Block 1a of the concrete reorg scenario: number 1, arrived first. -/
def blockW1a : BTNode := ⟨1, some 0, 1, 0⟩

/-- Block 1b of the concrete reorg scenario: number 1, arrived second. -/
def blockW1b : BTNode := ⟨2, some 0, 1, 1⟩

/-- Block 2b of the concrete reorg scenario: extends 1b to height 2. -/
def blockW2b : BTNode := ⟨3, some 2, 2, 2⟩

theorem bestBlock_fork_choice_witness :
    (bestBlock ⟨[genW, blockW1a, blockW1b]⟩ = some blockW1a) ∧
    (bestBlock ⟨[genW, blockW1a, blockW1b, blockW2b]⟩ = some blockW2b) := by
  have hr1 : Reachable ⟨[genW, blockW1a]⟩ :=
    Reachable.step _ blockW1a _ (Reachable.genesis genW rfl) rfl
  have hr2 : Reachable ⟨[genW, blockW1a, blockW1b]⟩ :=
    Reachable.step _ blockW1b _ hr1 rfl
  constructor
  · exact ((bestBlock_fork_choice _ hr1).2 blockW1b _ rfl).2 blockW1a (by decide)
      (by decide) (by decide)
  · exact ((bestBlock_fork_choice _ hr2).2 blockW2b _ rfl).1 (by decide)

theorem ancestorChainAux_sound {t : Tree} :
    ∀ fuel h x, x ∈ ancestorChainAux t fuel h → ∃ k, parentIter t k h = some x := by
  intro fuel
  induction fuel with
  | zero => intro h x hx; simp [ancestorChainAux] at hx
  | succ f ih =>
    intro h x hx
    rw [ancestorChainAux] at hx
    rcases List.mem_cons.mp hx with rfl | hx
    · exact ⟨0, rfl⟩
    · rcases hp : parentOf t h with _ | ph <;> rw [hp] at hx
      · simp at hx
      · obtain ⟨k, hk⟩ := ih ph x hx
        refine ⟨k + 1, ?_⟩
        rw [parentIter, hp]
        exact hk

theorem ancestorChainAux_complete {t : Tree} :
    ∀ k fuel h x, k < fuel → parentIter t k h = some x →
      x ∈ ancestorChainAux t fuel h := by
  intro k
  induction k with
  | zero =>
    intro fuel h x hkf hit
    rw [parentIter] at hit
    injection hit with hit
    subst hit
    rcases fuel with _ | f
    · omega
    · rw [ancestorChainAux]
      simp
  | succ k ih =>
    intro fuel h x hkf hit
    rcases fuel with _ | f
    · omega
    rw [parentIter] at hit
    rcases hp : parentOf t h with _ | ph <;> rw [hp] at hit
    · exact Option.noConfusion hit
    · rw [ancestorChainAux]
      simp only [hp]
      exact List.mem_cons_of_mem _ (ih f ph x (by omega) hit)

theorem parentIter_number {t : Tree} (hr : Reachable t) :
    ∀ k h n a, findNode t h = some n → parentIter t k h = some a →
      ∃ na, findNode t a = some na ∧ na.number + k = n.number := by
  intro k
  induction k with
  | zero =>
    intro h n a hf hit
    rw [parentIter] at hit
    injection hit with hit
    subst hit
    exact ⟨n, hf, rfl⟩
  | succ k ih =>
    intro h n a hf hit
    rw [parentIter] at hit
    rcases hp : parentOf t h with _ | ph <;> rw [hp] at hit
    · exact Option.noConfusion hit
    · have hnp : n.parent = some ph := by
        rw [parentOf, hf] at hp
        simpa using hp
      obtain ⟨p, hpmem, hph, hnumn⟩ :=
        (reachable_invariant hr).2.2 n (List.mem_of_find?_eq_some hf) ph hnp
      obtain ⟨p', hfp', hp'h⟩ := findNode_mem_hashes (List.mem_map.mpr ⟨p, hpmem, hph⟩)
      have hpp : p' = p :=
        hash_inj hr (List.mem_of_find?_eq_some hfp') hpmem (by rw [hp'h, hph])
      obtain ⟨na, hna, hnan⟩ := ih ph p' a hfp' hit
      refine ⟨na, hna, ?_⟩
      rw [hpp] at hnan
      omega

theorem mem_ancestorChain_iff {t : Tree} (hr : Reachable t) {h x : Nat}
    (hh : h ∈ hashes t) :
    x ∈ ancestorChain t h ↔ IsAncestor t x h := by
  constructor
  · intro hx
    exact ancestorChainAux_sound _ _ _ hx
  · intro ⟨k, hk⟩
    obtain ⟨n, hfn, _⟩ := findNode_mem_hashes hh
    obtain ⟨na, _, hnum⟩ := parentIter_number hr k h n x hfn hk
    simp only [ancestorChain, hfn]
    exact ancestorChainAux_complete k (n.number + 1) h x (by omega) hk

/-- C3: for every block state with a reachable tree whose blocks are in
the database, finalising a hash `h` present in the tree deletes the
header and body of exactly those blocks that are neither an ancestor of
`h` (the path from the old root, `h` included) nor a descendant of `h`,
and the pruned tree keeps exactly the descendants of `h`. -/
theorem setFinalizedHash_prunes (bs : BlockState) (h round setID : Nat)
    (bs' : BlockState) (hr : Reachable bs.bt) (hh : h ∈ hashes bs.bt)
    (hdb : ∀ n ∈ bs.bt.nodes, n.hash ∈ bs.headerDB ∧ n.hash ∈ bs.bodyDB)
    (hset : SetFinalizedHash bs h round setID = some bs') :
    ∀ b ∈ bs.bt.nodes,
      (b.hash ∈ bs'.headerDB ↔
        IsAncestor bs.bt b.hash h ∨ IsAncestor bs.bt h b.hash) ∧
      (b.hash ∈ bs'.bodyDB ↔
        IsAncestor bs.bt b.hash h ∨ IsAncestor bs.bt h b.hash) ∧
      (b ∈ bs'.bt.nodes ↔ IsAncestor bs.bt h b.hash) := by
  intro b hb
  obtain ⟨nf, hnf, _⟩ := findNode_mem_hashes hh
  rw [SetFinalizedHash, if_pos (by rw [hnf]; rfl)] at hset
  injection hset with hset
  subst hset
  have hbh : b.hash ∈ hashes bs.bt := List.mem_map.mpr ⟨b, hb, rfl⟩
  have hdesc : (h ∈ ancestorChain bs.bt b.hash) ↔ IsAncestor bs.bt h b.hash :=
    mem_ancestorChain_iff hr hbh
  have hanc : (b.hash ∈ ancestorChain bs.bt h) ↔ IsAncestor bs.bt b.hash h :=
    mem_ancestorChain_iff hr hh
  obtain ⟨hhead, hbody⟩ := hdb b hb
  refine ⟨?_, ?_, ?_⟩
  · simp only [List.mem_filter, hhead, true_and]
    rw [Bool.or_eq_true, decide_eq_true_eq, decide_eq_true_eq, hdesc, hanc]
    exact Or.comm
  · simp only [List.mem_filter, hbody, true_and]
    rw [Bool.or_eq_true, decide_eq_true_eq, decide_eq_true_eq, hdesc, hanc]
    exact Or.comm
  · simp only [List.mem_filter, hb, true_and, decide_eq_true_eq]
    exact hdesc

/-- The concrete finalisation scenario: a chain gen ← 1 ← 3 with a sibling
branch gen ← 2, all blocks persisted, before finalising block 1. -/
def finalizeWitnessState : BlockState :=
  { bt := ⟨[⟨0, none, 0, 0⟩, ⟨1, some 0, 1, 0⟩, ⟨2, some 0, 1, 1⟩, ⟨3, some 1, 2, 0⟩]⟩
    headerDB := [0, 1, 2, 3]
    bodyDB := [0, 1, 2, 3]
    round := 0
    setID := 0 }

theorem setFinalizedHash_prunes_witness :
    ∃ bs', SetFinalizedHash finalizeWitnessState 1 5 6 = some bs' ∧
      0 ∈ bs'.headerDB ∧ 2 ∉ bs'.headerDB := by
  have hr : Reachable finalizeWitnessState.bt :=
    Reachable.step _ ⟨3, some 1, 2, 0⟩ _
      (Reachable.step _ ⟨2, some 0, 1, 1⟩ _
        (Reachable.step _ ⟨1, some 0, 1, 0⟩ _
          (Reachable.genesis ⟨0, none, 0, 0⟩ rfl) rfl) rfl) rfl
  refine ⟨_, rfl, ?_, ?_⟩
  · exact ((setFinalizedHash_prunes finalizeWitnessState 1 5 6 _ hr (by decide)
      (by decide) rfl ⟨0, none, 0, 0⟩ (by decide)).1).mpr (Or.inl ⟨1, rfl⟩)
  · decide

end BlockTree

namespace Trie

/-- A nibble: half a byte, the fan-out unit of the radix-16 trie. -/
abbrev Nib := Fin 16

/-- A storage key as the caller supplies it: a byte string. -/
abbrev Key := List (Fin 256)

/-- A stored value. -/
abbrev Value := List Nat

mutual

/-- Modelled from the spec: the trie node structure of the Patricia-Merkle
trie (lib/trie, not part of the extracted sources).  A node is a leaf
with a partial key and value, or a branch with a partial key, up to 16
children and an optional value.  The children sit in a list of
(nibble index, child) pairs kept in strictly increasing index order — the
sparse rendering of the spec's "16 children" array. -/
inductive TNode where
  | leaf (pk : List Nib) (val : Value)
  | branch (pk : List Nib) (children : Kids) (val : Option Value)

/-- The sparse children list of a branch node. -/
inductive Kids where
  | nil
  | cons (idx : Nib) (child : TNode) (rest : Kids)

end

/-- Number of children of a branch. -/
def kidsLength : Kids → Nat
  | .nil => 0
  | .cons _ _ r => kidsLength r + 1

/-- Keys are expanded to nibbles, high nibble first. -/
def keyToNibbles : Key → List Nib
  | [] => []
  | b :: rest =>
    ⟨b.val / 16, by omega⟩ :: ⟨b.val % 16, by omega⟩ :: keyToNibbles rest

/-- The longest common prefix of two nibble strings, which insertion
splits on. -/
def commonPrefix : List Nib → List Nib → List Nib
  | a :: as, b :: bs => if a = b then a :: commonPrefix as bs else []
  | _, _ => []

mutual

/-- Lookup relative to a node: the key must carry the node's partial key
as a prefix; the remainder selects the value slot or a child. -/
def getN : TNode → List Nib → Option Value
  | .leaf pk v, k => if k = pk then some v else none
  | .branch pk cs v, k =>
    if k.take pk.length = pk then
      match k.drop pk.length with
      | [] => v
      | i :: rest => getK cs i rest
    else none

/-- Lookup of nibble `i` among the children, continuing with `rest`. -/
def getK : Kids → Nib → List Nib → Option Value
  | .nil, _, _ => none
  | .cons j c r, i, rest => if i = j then getN c rest else getK r i rest

end

mutual

/-- Modelled from the spec: insertion walks existing nodes and splits
shared prefixes into branch structure as needed. -/
def putN : TNode → List Nib → Value → TNode
  | .leaf pk v0, k, v =>
    if k = pk then .leaf pk v
    else
      let p := commonPrefix k pk
      match k.drop p.length, pk.drop p.length with
      | [], [] => .leaf pk v
      | [], j :: pkrest => .branch p (.cons j (.leaf pkrest v0) .nil) (some v)
      | i :: krest, [] => .branch p (.cons i (.leaf krest v) .nil) (some v0)
      | i :: krest, j :: pkrest =>
        if i < j then
          .branch p (.cons i (.leaf krest v) (.cons j (.leaf pkrest v0) .nil)) none
        else
          .branch p (.cons j (.leaf pkrest v0) (.cons i (.leaf krest v) .nil)) none
  | .branch pk cs v0, k, v =>
    if k.take pk.length = pk then
      match k.drop pk.length with
      | [] => .branch pk cs (some v)
      | i :: krest => .branch pk (putK cs i krest v) v0
    else
      let p := commonPrefix k pk
      match k.drop p.length, pk.drop p.length with
      | [], [] => .branch pk cs (some v)
      | _ :: _, [] => .branch pk cs (some v)
      | [], j :: pkrest => .branch p (.cons j (.branch pkrest cs v0) .nil) (some v)
      | i :: krest, j :: pkrest =>
        if i < j then
          .branch p
            (.cons i (.leaf krest v) (.cons j (.branch pkrest cs v0) .nil)) none
        else
          .branch p
            (.cons j (.branch pkrest cs v0) (.cons i (.leaf krest v) .nil)) none

/-- Insert below a branch: find or create the child at nibble `i`,
keeping children sorted by index. -/
def putK : Kids → Nib → List Nib → Value → Kids
  | .nil, i, krest, v => .cons i (.leaf krest v) .nil
  | .cons j c rest, i, krest, v =>
    if i = j then .cons j (putN c krest v) rest
    else if i < j then .cons i (.leaf krest v) (.cons j c rest)
    else .cons j c (putK rest i krest v)

end

/-- Reattach a partial key and nibble in front of a node when a branch
with a single child and no value collapses into it on deletion. -/
def prependPk (pk : List Nib) (i : Nib) : TNode → TNode
  | .leaf pk' v => .leaf (pk ++ i :: pk') v
  | .branch pk' cs v => .branch (pk ++ i :: pk') cs v

/-- Canonical rebuild of a branch whose value or children just shrank:
an empty branch vanishes, a value-only branch becomes a leaf, a
single-child valueless branch merges into the child. -/
def fixBranch (pk : List Nib) (cs : Kids) (v : Option Value) : Option TNode :=
  match cs, v with
  | .nil, none => none
  | .nil, some v => some (.leaf pk v)
  | .cons i c .nil, none => some (prependPk pk i c)
  | .cons i c .nil, some v => some (.branch pk (.cons i c .nil) (some v))
  | .cons i c (.cons j d r), v => some (.branch pk (.cons i c (.cons j d r)) v)

mutual

/-- Modelled from the spec: deletion walks to the key, removes the entry
and restores canonical structure on the way out. -/
def delN : TNode → List Nib → Option TNode
  | .leaf pk v, k => if k = pk then none else some (.leaf pk v)
  | .branch pk cs v, k =>
    if k.take pk.length = pk then
      match k.drop pk.length with
      | [] => fixBranch pk cs none
      | i :: krest => fixBranch pk (delK cs i krest) v
    else some (.branch pk cs v)

/-- Delete inside the child at nibble `i`; a child that becomes empty is
removed from the list. -/
def delK : Kids → Nib → List Nib → Kids
  | .nil, _, _ => .nil
  | .cons j c rest, i, krest =>
    if i = j then
      match delN c krest with
      | none => rest
      | some c' => .cons j c' rest
    else .cons j c (delK rest i krest)

end

/-- `NewEmptyTrie`: the empty trie has no root node. -/
def NewEmptyTrie : Option TNode := none

/-- `trie.Put`: expand the key to nibbles and insert. -/
def Put (t : Option TNode) (k : Key) (v : Value) : Option TNode :=
  match t with
  | none => some (.leaf (keyToNibbles k) v)
  | some n => some (putN n (keyToNibbles k) v)

/-- `trie.Delete`: expand the key to nibbles and delete. -/
def Delete (t : Option TNode) (k : Key) : Option TNode :=
  match t with
  | none => none
  | some n => delN n (keyToNibbles k)

/-- Lookup at nibble level. -/
def GetNibs (t : Option TNode) (nk : List Nib) : Option Value :=
  match t with
  | none => none
  | some n => getN n nk

/-- `trie.Get`: expand the key to nibbles and look it up. -/
def Get (t : Option TNode) (k : Key) : Option Value :=
  GetNibs t (keyToNibbles k)

/-- A `put` or `delete` operation, as issued against the trie. -/
inductive TrieOp where
  | put (key : Key) (value : Value)
  | del (key : Key)

/-- Apply one operation. -/
def applyOp (t : Option TNode) : TrieOp → Option TNode
  | .put k v => Put t k v
  | .del k => Delete t k

/-- Apply a sequence of operations to the initially empty trie. -/
def applyOps (ops : List TrieOp) : Option TNode :=
  ops.foldl applyOp NewEmptyTrie

/-- Every index in the children list exceeds `i`. -/
def kidsLB : Kids → Nib → Prop
  | .nil, _ => True
  | .cons j _ rest, i => i < j ∧ kidsLB rest i

mutual

/-- Canonical nodes: children lists are strictly sorted with canonical
children, and every branch has at least two children, or one child and a
value — the shapes `putN`/`delN` maintain and node hashing relies on. -/
inductive CanonN : TNode → Prop where
  | leaf : ∀ pk v, CanonN (.leaf pk v)
  | branch : ∀ pk cs v, CanonK cs →
      (2 ≤ kidsLength cs ∨ (kidsLength cs = 1 ∧ v.isSome = true)) →
      CanonN (.branch pk cs v)

/-- Canonical children lists. -/
inductive CanonK : Kids → Prop where
  | nil : CanonK .nil
  | cons : ∀ i c rest, CanonN c → CanonK rest → kidsLB rest i →
      CanonK (.cons i c rest)

end

theorem commonPrefix_take_left :
    ∀ a b : List Nib, a.take (commonPrefix a b).length = commonPrefix a b := by
  intro a
  induction a with
  | nil => intro b; cases b <;> simp [commonPrefix]
  | cons x as ih =>
    intro b
    cases b with
    | nil => simp [commonPrefix]
    | cons y bs =>
      rw [commonPrefix]
      by_cases hxy : x = y
      · rw [if_pos hxy]
        simp [ih bs]
      · rw [if_neg hxy]
        simp

theorem commonPrefix_take_right :
    ∀ a b : List Nib, b.take (commonPrefix a b).length = commonPrefix a b := by
  intro a
  induction a with
  | nil => intro b; cases b <;> simp [commonPrefix]
  | cons x as ih =>
    intro b
    cases b with
    | nil => simp [commonPrefix]
    | cons y bs =>
      rw [commonPrefix]
      by_cases hxy : x = y
      · rw [if_pos hxy]
        simp [ih bs, hxy]
      · rw [if_neg hxy]
        simp

theorem commonPrefix_max :
    ∀ a b : List Nib, ∀ i as' j bs',
      a.drop (commonPrefix a b).length = i :: as' →
      b.drop (commonPrefix a b).length = j :: bs' → i ≠ j := by
  intro a
  induction a with
  | nil =>
    intro b i as' j bs' h1 _
    cases b <;> simp [commonPrefix] at h1
  | cons x as ih =>
    intro b i as' j bs' h1 h2
    cases b with
    | nil => simp [commonPrefix] at h2
    | cons y bs =>
      rw [commonPrefix] at h1 h2
      by_cases hxy : x = y
      · rw [if_pos hxy] at h1 h2
        simp only [List.length_cons, List.drop_succ_cons] at h1 h2
        exact ih bs i as' j bs' h1 h2
      · rw [if_neg hxy] at h1 h2
        simp only [List.length_nil, List.drop_zero] at h1 h2
        injection h1 with h1 _
        injection h2 with h2 _
        subst h1
        subst h2
        exact hxy

theorem eq_of_drop_take {k : List Nib} {n : Nat} {p : List Nib}
    (ht : k.take n = p) (hd : k.drop n = []) : k = p := by
  rw [← List.take_append_drop n k, ht, hd, List.append_nil]

theorem append_cons_ne (p : List Nib) (m : Nib) (r : List Nib) :
    p ++ m :: r ≠ p := by
  intro h
  have := congrArg List.length h
  simp at this

/-- Lookup through a node whose partial key has been extended by
`p ++ [j]`: only keys of the shape `p ++ j :: rest` reach the node. -/
theorem getN_prependPk (n : TNode) (p : List Nib) (j : Nib) (k' : List Nib) :
    getN (prependPk p j n) k' =
      if k'.take p.length = p then
        match k'.drop p.length with
        | [] => none
        | m :: r => if m = j then getN n r else none
      else none := by
  by_cases hp : k'.take p.length = p
  · rw [if_pos hp]
    have hdec : k' = p ++ k'.drop p.length := by
      conv_lhs => rw [← List.take_append_drop p.length k']
      rw [hp]
    rcases hd : k'.drop p.length with _ | ⟨m, r⟩
    · simp only [hd]
      rw [hd, List.append_nil] at hdec
      rw [hdec]
      cases n with
      | leaf pk v =>
        rw [prependPk, getN, if_neg]
        intro hc
        have := congrArg List.length hc
        simp at this
      | branch pk cs v =>
        rw [prependPk, getN, if_neg]
        intro hc
        have hle : p.length ≤ (p ++ j :: pk).length := by simp
        rw [List.take_of_length_le hle] at hc
        have := congrArg List.length hc
        simp at this
    · simp only [hd]
      rw [hd] at hdec
      subst hdec
      cases n with
      | leaf pk v =>
        rw [prependPk, getN]
        by_cases hmj : m = j
        · subst hmj
          rw [if_pos rfl, getN]
          by_cases hr : r = pk
          · subst hr
            rw [if_pos rfl, if_pos rfl]
          · rw [if_neg hr, if_neg]
            intro hc
            rw [List.append_right_inj] at hc
            injection hc with _ hc
            exact hr hc
        · rw [if_neg hmj, if_neg]
          intro hc
          rw [List.append_right_inj] at hc
          injection hc with hc _
          exact hmj hc
      | branch pk cs v =>
        rw [prependPk, getN]
        have hL : (p ++ j :: pk).length = p.length + (1 + pk.length) := by
          simp
          omega
        have hcomm : 1 + pk.length = pk.length + 1 := Nat.add_comm _ _
        have htake : (p ++ m :: r).take (p ++ j :: pk).length
            = p ++ m :: r.take pk.length := by
          rw [hL, List.take_append]
          rw [hcomm, List.take_succ_cons]
        have hdrop : (p ++ m :: r).drop (p ++ j :: pk).length = r.drop pk.length := by
          rw [hL, List.drop_append]
          rw [hcomm, List.drop_succ_cons]
        rw [htake, hdrop]
        by_cases hmj : m = j
        · subst hmj
          rw [if_pos rfl, getN]
          by_cases hr : r.take pk.length = pk
          · rw [if_pos (by rw [hr]), if_pos hr]
          · rw [if_neg, if_neg hr]
            intro hc
            rw [List.append_right_inj] at hc
            injection hc with _ hc
            exact hr hc
        · rw [if_neg hmj, if_neg]
          intro hc
          rw [List.append_right_inj] at hc
          injection hc with hc _
          exact hmj hc
  · rw [if_neg hp]
    cases n with
    | leaf pk v =>
      rw [prependPk, getN, if_neg]
      intro hc
      apply hp
      rw [hc]
      exact List.take_left p _
    | branch pk cs v =>
      rw [prependPk, getN, if_neg]
      intro hc
      apply hp
      have hdec : k' = (p ++ j :: pk) ++ k'.drop (p ++ j :: pk).length := by
        conv_lhs => rw [← List.take_append_drop (p ++ j :: pk).length k']
        rw [hc]
      rw [hdec, List.append_assoc]
      exact List.take_left p _

theorem getN_branch_at_append (p : List Nib) (cs : Kids) (v : Option Value)
    (tail : List Nib) :
    getN (.branch p cs v) (p ++ tail) =
      match tail with
      | [] => v
      | m :: r => getK cs m r := by
  rw [getN, if_pos (List.take_left p tail), List.drop_left]

theorem getN_branch_no_pfx {p : List Nib} {cs : Kids} {v : Option Value}
    {k' : List Nib} (h : ¬ k'.take p.length = p) :
    getN (.branch p cs v) k' = none := by
  rw [getN, if_neg h]

theorem append_cons_inj (p : List Nib) (m : Nib) (r : List Nib) (i : Nib)
    (s : List Nib) : p ++ m :: r = p ++ i :: s ↔ m = i ∧ r = s := by
  rw [List.append_right_inj]
  constructor
  · intro h
    injection h with h1 h2
    exact ⟨h1, h2⟩
  · intro ⟨h1, h2⟩
    rw [h1, h2]

theorem ne_of_take_ne {k' p : List Nib} (h : ¬ k'.take p.length = p) :
    ∀ tail, k' ≠ p ++ tail := by
  intro tail hc
  subst hc
  exact h (List.take_left p tail)

theorem ne_self_of_take_ne {k' p : List Nib} (h : ¬ k'.take p.length = p) :
    k' ≠ p := by
  intro hc
  apply h
  rw [hc]
  simp

theorem key_decompose {k' : List Nib} {p : List Nib}
    (h : k'.take p.length = p) : k' = p ++ k'.drop p.length := by
  conv_lhs => rw [← List.take_append_drop p.length k']
  rw [h]

theorem getK_swap_two (i : Nib) (x : TNode) (j : Nib) (y : TNode)
    (hij : i ≠ j) (m : Nib) (r : List Nib) :
    getK (.cons i x (.cons j y .nil)) m r = getK (.cons j y (.cons i x .nil)) m r := by
  simp only [getK]
  by_cases hmi : m = i
  · subst hmi
    rw [if_pos rfl, if_neg hij, if_pos rfl]
  · rw [if_neg hmi]
    by_cases hmj : m = j
    · rw [if_pos hmj, if_pos hmj]
    · rw [if_neg hmj, if_neg hmj, if_neg hmi]

theorem getN_leaf (pk : List Nib) (v : Value) (k' : List Nib) :
    getN (.leaf pk v) k' = if k' = pk then some v else none := by
  rw [getN]

theorem getN_branch_at_self (p : List Nib) (cs : Kids) (v : Option Value) :
    getN (.branch p cs v) p = v := by
  have h := getN_branch_at_append p cs v []
  rw [List.append_nil] at h
  exact h

theorem kidsLB_of_lt : ∀ (cs : Kids) (a b : Nib), a < b → kidsLB cs b → kidsLB cs a
  | .nil, _, _, _, _ => trivial
  | .cons _ _ rest, a, b, hab, h =>
    ⟨lt_trans hab h.1, kidsLB_of_lt rest a b hab h.2⟩

theorem getK_none_of_lb : ∀ (cs : Kids) (i : Nib) (r : List Nib),
    kidsLB cs i → getK cs i r = none
  | .nil, _, _, _ => by rw [getK]
  | .cons j c rest, i, r, h => by
    rw [getK, if_neg (Fin.ne_of_lt h.1), getK_none_of_lb rest i r h.2]

mutual

/-- Functional correctness of insertion: `putN` updates exactly the given
key and preserves every other lookup. -/
theorem get_putN (n : TNode) (hcan : CanonN n) (k : List Nib) (v : Value)
    (k' : List Nib) :
    getN (putN n k v) k' = if k' = k then some v else getN n k' := by
  cases n with
  | leaf pk v0 =>
    by_cases hkpk : k = pk
    · subst hkpk
      rw [putN, if_pos rfl, getN_leaf, getN_leaf]
      by_cases hk' : k' = k
      · simp [hk']
      · simp [hk']
    · have hkt := commonPrefix_take_left k pk
      have hpkt := commonPrefix_take_right k pk
      have hkdec := key_decompose hkt
      have hpkdec := key_decompose hpkt
      rw [putN, if_neg hkpk]
      simp only
      set p := commonPrefix k pk with hpdef
      rcases hkd : k.drop p.length with _ | ⟨i, krest⟩ <;>
        rcases hpkd : pk.drop p.length with _ | ⟨j, pkrest⟩ <;>
          simp only [hkd, hpkd]
      · exfalso
        rw [hkd, List.append_nil] at hkdec
        rw [hpkd, List.append_nil] at hpkdec
        exact hkpk (hkdec.trans hpkdec.symm)
      · rw [hkd, List.append_nil] at hkdec
        rw [hpkd] at hpkdec
        have horig : getN (.leaf pk v0) k' = getN (prependPk p j (.leaf pkrest v0)) k' := by
          rw [prependPk, ← hpkdec]
        rw [horig, getN_prependPk]
        by_cases hp' : k'.take p.length = p
        · have hdec' := key_decompose hp'
          rw [if_pos hp']
          rcases hd : k'.drop p.length with _ | ⟨m, r⟩ <;> simp only [hd]
          · rw [hd, List.append_nil] at hdec'
            rw [hdec', getN_branch_at_self, if_pos hkdec.symm]
          · rw [hd] at hdec'
            rw [hdec', if_neg (fun hc => append_cons_ne p m r (hc.trans hkdec))]
            simp only [getN_branch_at_append, getK]
        · rw [if_neg hp', getN_branch_no_pfx hp', if_neg]
          intro hc
          rw [hkdec] at hc
          exact ne_self_of_take_ne hp' hc
      · rw [hkd] at hkdec
        rw [hpkd, List.append_nil] at hpkdec
        by_cases hp' : k'.take p.length = p
        · have hdec' := key_decompose hp'
          rcases hd : k'.drop p.length with _ | ⟨m, r⟩
          · rw [hd, List.append_nil] at hdec'
            rw [hdec', getN_branch_at_self, getN_leaf,
              if_neg (fun hc => append_cons_ne p i krest (hc.trans hkdec).symm),
              if_pos hpkdec.symm]
          · rw [hd] at hdec'
            rw [hdec']
            simp only [getN_branch_at_append, getK, getN_leaf]
            rw [hkdec, hpkdec, if_neg (append_cons_ne p m r)]
            by_cases hmi : m = i
            · subst hmi
              rw [if_pos rfl]
              by_cases hr : r = krest
              · subst hr
                rw [if_pos rfl, if_pos ((append_cons_inj p _ _ _ _).mpr ⟨rfl, rfl⟩)]
              · rw [if_neg hr,
                  if_neg (fun hc => hr ((append_cons_inj p _ _ _ _).mp hc).2)]
            · rw [if_neg hmi,
                if_neg (fun hc => hmi ((append_cons_inj p _ _ _ _).mp hc).1)]
        · rw [getN_branch_no_pfx hp', getN_leaf,
            if_neg (by rw [hkdec]; exact ne_of_take_ne hp' _),
            if_neg (by rw [hpkdec]; exact ne_self_of_take_ne hp')]
      · rw [hkd] at hkdec
        rw [hpkd] at hpkdec
        have hij : i ≠ j := commonPrefix_max k pk i krest j pkrest
          (by rw [← hpdef]; exact hkd) (by rw [← hpdef]; exact hpkd)
        have horig : getN (.leaf pk v0) k' = getN (prependPk p j (.leaf pkrest v0)) k' := by
          rw [prependPk, ← hpkdec]
        have hgoal : ∀ kids : Kids,
            (∀ m r, getK kids m r =
              if m = i then (if r = krest then some v else none)
              else if m = j then getN (.leaf pkrest v0) r else none) →
            getN (.branch p kids none) k' =
              if k' = k then some v else getN (.leaf pk v0) k' := by
          intro kids hkids
          rw [horig, getN_prependPk]
          by_cases hp' : k'.take p.length = p
          · have hdec' := key_decompose hp'
            rw [if_pos hp']
            rcases hd : k'.drop p.length with _ | ⟨m, r⟩ <;> simp only [hd]
            · rw [hd, List.append_nil] at hdec'
              rw [hdec', getN_branch_at_self,
                if_neg (fun hc => append_cons_ne p i krest (hc.trans hkdec).symm)]
            · rw [hd] at hdec'
              rw [hdec']
              simp only [getN_branch_at_append]
              rw [hkids m r, hkdec]
              by_cases hmi : m = i
              · subst hmi
                rw [if_pos rfl, if_neg (fun hc : m = j => hij hc)]
                by_cases hr : r = krest
                · subst hr
                  rw [if_pos rfl, if_pos ((append_cons_inj p _ _ _ _).mpr ⟨rfl, rfl⟩)]
                · rw [if_neg hr,
                    if_neg (fun hc => hr ((append_cons_inj p _ _ _ _).mp hc).2)]
              · rw [if_neg hmi,
                  if_neg (fun hc => hmi ((append_cons_inj p _ _ _ _).mp hc).1)]
          · rw [if_neg hp', getN_branch_no_pfx hp', if_neg]
            intro hc
            rw [hkdec] at hc
            exact ne_of_take_ne hp' _ hc
        by_cases hij' : i < j
        · rw [if_pos hij']
          apply hgoal
          intro m r
          simp only [getK, getN_leaf]
        · rw [if_neg hij']
          apply hgoal
          intro m r
          rw [getK_swap_two j _ i _ (fun hc => hij hc.symm) m r]
          simp only [getK, getN_leaf]
  | branch pk cs v0 =>
    rw [putN]
    by_cases hpre : k.take pk.length = pk
    · rw [if_pos hpre]
      rcases hkd : k.drop pk.length with _ | ⟨i, krest⟩ <;> simp only [hkd]
      · have hkpk : k = pk := eq_of_drop_take hpre hkd
        by_cases hp' : k'.take pk.length = pk
        · have hdec' := key_decompose hp'
          rcases hd : k'.drop pk.length with _ | ⟨m, r⟩
          · rw [hd, List.append_nil] at hdec'
            rw [hdec', getN_branch_at_self, getN_branch_at_self, if_pos hkpk.symm]
          · rw [hd] at hdec'
            rw [hdec', if_neg (fun hc => append_cons_ne pk m r (hc.trans hkpk))]
            simp only [getN_branch_at_append]
        · rw [getN_branch_no_pfx hp', getN_branch_no_pfx hp', if_neg]
          intro hc
          rw [hkpk] at hc
          exact ne_self_of_take_ne hp' hc
      · have hkdec : k = pk ++ i :: krest := by
          rw [← hkd]
          exact key_decompose hpre
        by_cases hp' : k'.take pk.length = pk
        · have hdec' := key_decompose hp'
          rcases hd : k'.drop pk.length with _ | ⟨m, r⟩
          · rw [hd, List.append_nil] at hdec'
            rw [hdec', getN_branch_at_self, getN_branch_at_self,
              if_neg (fun hc => append_cons_ne pk i krest (hc.trans hkdec).symm)]
          · rw [hd] at hdec'
            rw [hdec']
            simp only [getN_branch_at_append]
            have hck : CanonK cs := by cases hcan with | branch _ _ _ h _ => exact h
            rw [get_putK cs hck i krest v m r, hkdec]
            by_cases hcond : m = i ∧ r = krest
            · rw [if_pos hcond, if_pos ((append_cons_inj pk _ _ _ _).mpr hcond)]
            · rw [if_neg hcond,
                if_neg (fun hc => hcond ((append_cons_inj pk _ _ _ _).mp hc))]
        · rw [getN_branch_no_pfx hp', getN_branch_no_pfx hp', if_neg]
          intro hc
          rw [hkdec] at hc
          exact ne_of_take_ne hp' _ hc
    · rw [if_neg hpre]
      have hkt := commonPrefix_take_left k pk
      have hpkt := commonPrefix_take_right k pk
      have hkdec := key_decompose hkt
      have hpkdec := key_decompose hpkt
      simp only
      set p := commonPrefix k pk with hpdef
      rcases hkd : k.drop p.length with _ | ⟨i, krest⟩ <;>
        rcases hpkd : pk.drop p.length with _ | ⟨j, pkrest⟩ <;>
          simp only [hkd, hpkd]
      · exfalso
        rw [hpkd, List.append_nil] at hpkdec
        apply hpre
        rw [← hpkdec] at hkt
        rw [hkt, hpkdec]
      · rw [hkd, List.append_nil] at hkdec
        rw [hpkd] at hpkdec
        have horig : getN (.branch pk cs v0) k' =
            getN (prependPk p j (.branch pkrest cs v0)) k' := by
          rw [prependPk, ← hpkdec]
        rw [horig, getN_prependPk]
        by_cases hp' : k'.take p.length = p
        · have hdec' := key_decompose hp'
          rw [if_pos hp']
          rcases hd : k'.drop p.length with _ | ⟨m, r⟩ <;> simp only [hd]
          · rw [hd, List.append_nil] at hdec'
            rw [hdec', getN_branch_at_self, if_pos hkdec.symm]
          · rw [hd] at hdec'
            rw [hdec', if_neg (fun hc => append_cons_ne p m r (hc.trans hkdec))]
            simp only [getN_branch_at_append, getK]
        · rw [if_neg hp', getN_branch_no_pfx hp', if_neg]
          intro hc
          rw [hkdec] at hc
          exact ne_self_of_take_ne hp' hc
      · exfalso
        rw [hpkd, List.append_nil] at hpkdec
        apply hpre
        rw [← hpkdec] at hkt
        rw [hkt, hpkdec]
      · rw [hkd] at hkdec
        rw [hpkd] at hpkdec
        have hij : i ≠ j := commonPrefix_max k pk i krest j pkrest
          (by rw [← hpdef]; exact hkd) (by rw [← hpdef]; exact hpkd)
        have horig : getN (.branch pk cs v0) k' =
            getN (prependPk p j (.branch pkrest cs v0)) k' := by
          rw [prependPk, ← hpkdec]
        have hgoal : ∀ kids : Kids,
            (∀ m r, getK kids m r =
              if m = i then (if r = krest then some v else none)
              else if m = j then getN (.branch pkrest cs v0) r else none) →
            getN (.branch p kids none) k' =
              if k' = k then some v else getN (.branch pk cs v0) k' := by
          intro kids hkids
          rw [horig, getN_prependPk]
          by_cases hp' : k'.take p.length = p
          · have hdec' := key_decompose hp'
            rw [if_pos hp']
            rcases hd : k'.drop p.length with _ | ⟨m, r⟩ <;> simp only [hd]
            · rw [hd, List.append_nil] at hdec'
              rw [hdec', getN_branch_at_self,
                if_neg (fun hc => append_cons_ne p i krest (hc.trans hkdec).symm)]
            · rw [hd] at hdec'
              rw [hdec']
              simp only [getN_branch_at_append]
              rw [hkids m r, hkdec]
              by_cases hmi : m = i
              · subst hmi
                rw [if_pos rfl, if_neg (fun hc : m = j => hij hc)]
                by_cases hr : r = krest
                · subst hr
                  rw [if_pos rfl, if_pos ((append_cons_inj p _ _ _ _).mpr ⟨rfl, rfl⟩)]
                · rw [if_neg hr,
                    if_neg (fun hc => hr ((append_cons_inj p _ _ _ _).mp hc).2)]
              · rw [if_neg hmi,
                  if_neg (fun hc => hmi ((append_cons_inj p _ _ _ _).mp hc).1)]
          · rw [if_neg hp', getN_branch_no_pfx hp', if_neg]
            intro hc
            rw [hkdec] at hc
            exact ne_of_take_ne hp' _ hc
        by_cases hij' : i < j
        · rw [if_pos hij']
          apply hgoal
          intro m r
          simp only [getK, getN_leaf]
        · rw [if_neg hij']
          apply hgoal
          intro m r
          rw [getK_swap_two j _ i _ (fun hc => hij hc.symm) m r]
          simp only [getK, getN_leaf]

theorem get_putK (cs : Kids) (hcan : CanonK cs) (i : Nib) (krest : List Nib)
    (v : Value) (j : Nib) (rest' : List Nib) :
    getK (putK cs i krest v) j rest' =
      if j = i ∧ rest' = krest then some v else getK cs j rest' := by
  cases cs with
  | nil =>
    rw [putK]
    simp only [getK, getN_leaf]
    by_cases hji : j = i
    · subst hji
      rw [if_pos rfl]
      by_cases hr : rest' = krest
      · subst hr
        rw [if_pos rfl, if_pos ⟨rfl, rfl⟩]
      · rw [if_neg hr, if_neg (fun hc => hr hc.2)]
    · rw [if_neg hji, if_neg (fun hc => hji hc.1)]
  | cons j0 c rest =>
    have hcc : CanonN c := by cases hcan with | cons _ _ _ h _ _ => exact h
    have hcrest : CanonK rest := by cases hcan with | cons _ _ _ _ h _ => exact h
    have hlb : kidsLB rest j0 := by cases hcan with | cons _ _ _ _ _ h => exact h
    rw [putK]
    by_cases hij0 : i = j0
    · subst hij0
      rw [if_pos rfl]
      simp only [getK]
      by_cases hj : j = i
      · subst hj
        rw [if_pos rfl, if_pos rfl, get_putN c hcc krest v rest']
        by_cases hr : rest' = krest
        · rw [if_pos hr, if_pos ⟨rfl, hr⟩]
        · rw [if_neg hr, if_neg (fun hc : j = j ∧ rest' = krest => hr hc.2)]
      · rw [if_neg hj, if_neg hj, if_neg (fun hc : j = i ∧ rest' = krest => hj hc.1)]
    · rw [if_neg hij0]
      by_cases hlt : i < j0
      · rw [if_pos hlt]
        simp only [getK, getN_leaf]
        by_cases hj : j = i
        · subst hj
          rw [if_pos rfl, if_neg hij0]
          by_cases hr : rest' = krest
          · subst hr
            rw [if_pos rfl, if_pos ⟨rfl, rfl⟩]
          · rw [if_neg hr, if_neg (fun hc : j = j ∧ rest' = krest => hr hc.2),
              getK_none_of_lb rest j rest' (kidsLB_of_lt rest j j0 hlt hlb)]
        · rw [if_neg hj, if_neg (fun hc : j = i ∧ rest' = krest => hj hc.1)]
      · rw [if_neg hlt]
        simp only [getK]
        by_cases hj : j = j0
        · subst hj
          rw [if_pos rfl, if_pos rfl,
            if_neg (fun hc : j = i ∧ rest' = krest => hij0 hc.1.symm)]
        · rw [if_neg hj, if_neg hj, get_putK rest hcrest i krest v j rest']

end

theorem get_fixBranch (pk : List Nib) (cs : Kids) (v : Option Value)
    (k' : List Nib) :
    GetNibs (fixBranch pk cs v) k' = getN (.branch pk cs v) k' := by
  cases cs with
  | nil =>
    cases v with
    | none =>
      rw [fixBranch, GetNibs]
      by_cases hp' : k'.take pk.length = pk
      · have hdec' := key_decompose hp'
        rcases hd : k'.drop pk.length with _ | ⟨m, r⟩
        · rw [hd, List.append_nil] at hdec'
          rw [hdec', getN_branch_at_self]
        · rw [hd] at hdec'
          rw [hdec']
          simp only [getN_branch_at_append, getK]
      · rw [getN_branch_no_pfx hp']
    | some w =>
      rw [fixBranch, GetNibs, getN_leaf]
      by_cases hp' : k'.take pk.length = pk
      · have hdec' := key_decompose hp'
        rcases hd : k'.drop pk.length with _ | ⟨m, r⟩
        · rw [hd, List.append_nil] at hdec'
          rw [hdec', getN_branch_at_self, if_pos rfl]
        · rw [hd] at hdec'
          rw [hdec', if_neg (append_cons_ne pk m r)]
          simp only [getN_branch_at_append, getK]
      · rw [getN_branch_no_pfx hp', if_neg (ne_self_of_take_ne hp')]
  | cons i c rest =>
    cases rest with
    | nil =>
      cases v with
      | none =>
        rw [fixBranch, GetNibs, getN_prependPk]
        by_cases hp' : k'.take pk.length = pk
        · have hdec' := key_decompose hp'
          rw [if_pos hp']
          rcases hd : k'.drop pk.length with _ | ⟨m, r⟩ <;> simp only [hd]
          · rw [hd, List.append_nil] at hdec'
            rw [hdec', getN_branch_at_self]
          · rw [hd] at hdec'
            rw [hdec']
            simp only [getN_branch_at_append, getK]
        · rw [if_neg hp', getN_branch_no_pfx hp']
      | some w =>
        rw [fixBranch, GetNibs]
    | cons j d r2 =>
      rw [fixBranch, GetNibs]

mutual

/-- Functional correctness of deletion: `delN` removes exactly the given
key and preserves every other lookup. -/
theorem get_delN (n : TNode) (hcan : CanonN n) (k k' : List Nib) :
    GetNibs (delN n k) k' = if k' = k then none else getN n k' := by
  cases n with
  | leaf pk v0 =>
    rw [delN]
    by_cases hkpk : k = pk
    · subst hkpk
      rw [if_pos rfl, GetNibs, getN_leaf]
      by_cases hk' : k' = k
      · rw [if_pos hk']
      · rw [if_neg hk', if_neg hk']
    · rw [if_neg hkpk, GetNibs, getN_leaf]
      by_cases hk' : k' = k
      · rw [if_pos hk', if_neg (fun hc : k' = pk => hkpk (hk'.symm.trans hc))]
      · rw [if_neg hk']
  | branch pk cs v0 =>
    have hck : CanonK cs := by cases hcan with | branch _ _ _ h _ => exact h
    rw [delN]
    by_cases hpre : k.take pk.length = pk
    · rw [if_pos hpre]
      rcases hkd : k.drop pk.length with _ | ⟨i, krest⟩ <;> simp only [hkd]
      · have hkpk : k = pk := eq_of_drop_take hpre hkd
        rw [get_fixBranch]
        by_cases hp' : k'.take pk.length = pk
        · have hdec' := key_decompose hp'
          rcases hd : k'.drop pk.length with _ | ⟨m, r⟩
          · rw [hd, List.append_nil] at hdec'
            rw [hdec', getN_branch_at_self, getN_branch_at_self, if_pos hkpk.symm]
          · rw [hd] at hdec'
            rw [hdec', if_neg (fun hc => append_cons_ne pk m r (hc.trans hkpk))]
            simp only [getN_branch_at_append]
        · rw [getN_branch_no_pfx hp', getN_branch_no_pfx hp', if_neg]
          intro hc
          rw [hkpk] at hc
          exact ne_self_of_take_ne hp' hc
      · have hkdec : k = pk ++ i :: krest := by
          rw [← hkd]
          exact key_decompose hpre
        rw [get_fixBranch]
        by_cases hp' : k'.take pk.length = pk
        · have hdec' := key_decompose hp'
          rcases hd : k'.drop pk.length with _ | ⟨m, r⟩
          · rw [hd, List.append_nil] at hdec'
            rw [hdec', getN_branch_at_self, getN_branch_at_self,
              if_neg (fun hc => append_cons_ne pk i krest (hc.trans hkdec).symm)]
          · rw [hd] at hdec'
            rw [hdec']
            simp only [getN_branch_at_append]
            rw [get_delK cs hck i krest m r, hkdec]
            by_cases hcond : m = i ∧ r = krest
            · rw [if_pos hcond, if_pos ((append_cons_inj pk _ _ _ _).mpr hcond)]
            · rw [if_neg hcond,
                if_neg (fun hc => hcond ((append_cons_inj pk _ _ _ _).mp hc))]
        · rw [getN_branch_no_pfx hp', getN_branch_no_pfx hp', if_neg]
          intro hc
          rw [hkdec] at hc
          exact ne_of_take_ne hp' _ hc
    · rw [if_neg hpre, GetNibs]
      by_cases hk' : k' = k
      · rw [if_pos hk', hk', getN_branch_no_pfx hpre]
      · rw [if_neg hk']

theorem get_delK (cs : Kids) (hcan : CanonK cs) (i : Nib) (krest : List Nib)
    (j : Nib) (rest' : List Nib) :
    getK (delK cs i krest) j rest' =
      if j = i ∧ rest' = krest then none else getK cs j rest' := by
  cases cs with
  | nil =>
    rw [delK]
    by_cases hcond : j = i ∧ rest' = krest
    · rw [if_pos hcond, getK]
    · rw [if_neg hcond]
  | cons j0 c rest =>
    have hcc : CanonN c := by cases hcan with | cons _ _ _ h _ _ => exact h
    have hcrest : CanonK rest := by cases hcan with | cons _ _ _ _ h _ => exact h
    have hlb : kidsLB rest j0 := by cases hcan with | cons _ _ _ _ _ h => exact h
    rw [delK]
    by_cases hij0 : i = j0
    · subst hij0
      rw [if_pos rfl]
      have hdel := get_delN c hcc krest rest'
      rcases hd : delN c krest with _ | c' <;> simp only [hd] <;>
        rw [hd, GetNibs] at hdel
      · by_cases hj : j = i
        · subst hj
          rw [getK_none_of_lb rest j rest' hlb]
          by_cases hr : rest' = krest
          · rw [if_pos ⟨rfl, hr⟩]
          · rw [if_neg (fun hc : j = j ∧ rest' = krest => hr hc.2), getK,
              if_pos rfl]
            rw [if_neg hr] at hdel
            exact hdel
        · rw [if_neg (fun hc : j = i ∧ rest' = krest => hj hc.1), getK,
            if_neg hj]
      · by_cases hj : j = i
        · subst hj
          rw [getK, if_pos rfl, getK, if_pos rfl, hdel]
          by_cases hr : rest' = krest
          · rw [if_pos hr, if_pos ⟨rfl, hr⟩]
          · rw [if_neg hr, if_neg (fun hc : j = j ∧ rest' = krest => hr hc.2)]
        · rw [getK, if_neg hj, getK, if_neg hj,
            if_neg (fun hc : j = i ∧ rest' = krest => hj hc.1)]
    · rw [if_neg hij0]
      simp only [getK]
      by_cases hj : j = j0
      · subst hj
        rw [if_pos rfl, if_pos rfl,
          if_neg (fun hc : j = i ∧ rest' = krest => hij0 hc.1.symm)]
      · rw [if_neg hj, if_neg hj, get_delK rest hcrest i krest j rest']

end

theorem kidsLength_putK_ge : ∀ (cs : Kids) (i : Nib) (krest : List Nib)
    (v : Value), kidsLength cs ≤ kidsLength (putK cs i krest v)
  | .nil, i, krest, v => by
    rw [putK, kidsLength, kidsLength, kidsLength]
    omega
  | .cons j c rest, i, krest, v => by
    rw [putK]
    by_cases hij : i = j
    · rw [if_pos hij, kidsLength, kidsLength]
    · rw [if_neg hij]
      by_cases hlt : i < j
      · rw [if_pos hlt, kidsLength, kidsLength, kidsLength]
        omega
      · rw [if_neg hlt, kidsLength, kidsLength]
        have := kidsLength_putK_ge rest i krest v
        omega

theorem kidsLB_putK : ∀ (cs : Kids) (i : Nib) (krest : List Nib) (v : Value)
    (lb : Nib), kidsLB cs lb → lb < i → kidsLB (putK cs i krest v) lb
  | .nil, i, krest, v, lb, _, hlb => by
    rw [putK]
    exact ⟨hlb, trivial⟩
  | .cons j c rest, i, krest, v, lb, h, hlb => by
    rw [putK]
    by_cases hij : i = j
    · rw [if_pos hij]
      exact ⟨h.1, h.2⟩
    · rw [if_neg hij]
      by_cases hlt : i < j
      · rw [if_pos hlt]
        exact ⟨hlb, h.1, h.2⟩
      · rw [if_neg hlt]
        exact ⟨h.1, kidsLB_putK rest i krest v lb h.2 hlb⟩

mutual

/-- Insertion preserves canonical structure. -/
theorem putN_canon (n : TNode) (hcan : CanonN n) (k : List Nib) (v : Value) :
    CanonN (putN n k v) := by
  cases n with
  | leaf pk v0 =>
    rw [putN]
    by_cases hkpk : k = pk
    · rw [if_pos hkpk]
      exact CanonN.leaf pk v
    · rw [if_neg hkpk]
      simp only
      rcases hkd : k.drop (commonPrefix k pk).length with _ | ⟨i, krest⟩ <;>
        rcases hpkd : pk.drop (commonPrefix k pk).length with _ | ⟨j, pkrest⟩ <;>
          simp only [hkd, hpkd]
      · exact CanonN.leaf pk v
      · exact CanonN.branch _ _ _
          (CanonK.cons _ _ _ (CanonN.leaf _ _) CanonK.nil trivial)
          (Or.inr ⟨rfl, rfl⟩)
      · exact CanonN.branch _ _ _
          (CanonK.cons _ _ _ (CanonN.leaf _ _) CanonK.nil trivial)
          (Or.inr ⟨rfl, rfl⟩)
      · have hij : i ≠ j := commonPrefix_max k pk i krest j pkrest hkd hpkd
        by_cases hlt : i < j
        · rw [if_pos hlt]
          exact CanonN.branch _ _ _
            (CanonK.cons _ _ _ (CanonN.leaf _ _)
              (CanonK.cons _ _ _ (CanonN.leaf _ _) CanonK.nil trivial)
              ⟨hlt, trivial⟩)
            (Or.inl (by rw [kidsLength, kidsLength, kidsLength]))
        · rw [if_neg hlt]
          have hji : j < i := by
            rcases Fin.lt_or_lt_of_ne hij with h | h
            · exact absurd h hlt
            · exact h
          exact CanonN.branch _ _ _
            (CanonK.cons _ _ _ (CanonN.leaf _ _)
              (CanonK.cons _ _ _ (CanonN.leaf _ _) CanonK.nil trivial)
              ⟨hji, trivial⟩)
            (Or.inl (by rw [kidsLength, kidsLength, kidsLength]))
  | branch pk cs v0 =>
    have hck : CanonK cs := by cases hcan with | branch _ _ _ h _ => exact h
    have harity : 2 ≤ kidsLength cs ∨ (kidsLength cs = 1 ∧ v0.isSome = true) := by
      cases hcan with | branch _ _ _ _ h => exact h
    rw [putN]
    by_cases hpre : k.take pk.length = pk
    · rw [if_pos hpre]
      rcases hkd : k.drop pk.length with _ | ⟨i, krest⟩ <;> simp only [hkd]
      · exact CanonN.branch _ _ _ hck
          (by rcases harity with h | h
              · exact Or.inl h
              · exact Or.inr ⟨h.1, rfl⟩)
      · refine CanonN.branch _ _ _ (putK_canon cs hck i krest v) ?_
        have hge := kidsLength_putK_ge cs i krest v
        rcases harity with h | h
        · exact Or.inl (by omega)
        · by_cases h2 : 2 ≤ kidsLength (putK cs i krest v)
          · exact Or.inl h2
          · exact Or.inr ⟨by omega, h.2⟩
    · rw [if_neg hpre]
      simp only
      rcases hkd : k.drop (commonPrefix k pk).length with _ | ⟨i, krest⟩ <;>
        rcases hpkd : pk.drop (commonPrefix k pk).length with _ | ⟨j, pkrest⟩ <;>
          simp only [hkd, hpkd]
      · exact CanonN.branch _ _ _ hck
          (by rcases harity with h | h
              · exact Or.inl h
              · exact Or.inr ⟨h.1, rfl⟩)
      · exact CanonN.branch _ _ _
          (CanonK.cons _ _ _ (CanonN.branch _ _ _ hck harity) CanonK.nil trivial)
          (Or.inr ⟨rfl, rfl⟩)
      · exact CanonN.branch _ _ _ hck
          (by rcases harity with h | h
              · exact Or.inl h
              · exact Or.inr ⟨h.1, rfl⟩)
      · have hij : i ≠ j := commonPrefix_max k pk i krest j pkrest hkd hpkd
        by_cases hlt : i < j
        · rw [if_pos hlt]
          exact CanonN.branch _ _ _
            (CanonK.cons _ _ _ (CanonN.leaf _ _)
              (CanonK.cons _ _ _ (CanonN.branch _ _ _ hck harity) CanonK.nil trivial)
              ⟨hlt, trivial⟩)
            (Or.inl (by rw [kidsLength, kidsLength, kidsLength]))
        · rw [if_neg hlt]
          have hji : j < i := by
            rcases Fin.lt_or_lt_of_ne hij with h | h
            · exact absurd h hlt
            · exact h
          exact CanonN.branch _ _ _
            (CanonK.cons _ _ _ (CanonN.branch _ _ _ hck harity)
              (CanonK.cons _ _ _ (CanonN.leaf _ _) CanonK.nil trivial)
              ⟨hji, trivial⟩)
            (Or.inl (by rw [kidsLength, kidsLength, kidsLength]))

theorem putK_canon (cs : Kids) (hcan : CanonK cs) (i : Nib) (krest : List Nib)
    (v : Value) : CanonK (putK cs i krest v) := by
  cases cs with
  | nil =>
    rw [putK]
    exact CanonK.cons _ _ _ (CanonN.leaf _ _) CanonK.nil trivial
  | cons j c rest =>
    have hcc : CanonN c := by cases hcan with | cons _ _ _ h _ _ => exact h
    have hcrest : CanonK rest := by cases hcan with | cons _ _ _ _ h _ => exact h
    have hlb : kidsLB rest j := by cases hcan with | cons _ _ _ _ _ h => exact h
    rw [putK]
    by_cases hij : i = j
    · rw [if_pos hij]
      exact CanonK.cons _ _ _ (putN_canon c hcc krest v) hcrest hlb
    · rw [if_neg hij]
      by_cases hlt : i < j
      · rw [if_pos hlt]
        exact CanonK.cons _ _ _ (CanonN.leaf _ _)
          (CanonK.cons _ _ _ hcc hcrest hlb)
          ⟨hlt, kidsLB_of_lt rest i j hlt hlb⟩
      · rw [if_neg hlt]
        have hji : j < i := by
          rcases Fin.lt_or_lt_of_ne (fun hc => hij hc) with h | h
          · exact absurd h hlt
          · exact h
        exact CanonK.cons _ _ _ hcc (putK_canon rest hcrest i krest v)
          (kidsLB_putK rest i krest v j hlb hji)

end

theorem prependPk_canon (pk : List Nib) (i : Nib) (n : TNode)
    (hcan : CanonN n) : CanonN (prependPk pk i n) := by
  cases n with
  | leaf pk' v => exact CanonN.leaf _ _
  | branch pk' cs v =>
    rw [prependPk]
    cases hcan with
    | branch _ _ _ hck harity => exact CanonN.branch _ _ _ hck harity

theorem fixBranch_canon (pk : List Nib) (cs : Kids) (v : Option Value)
    (hcan : CanonK cs) :
    ∀ n', fixBranch pk cs v = some n' → CanonN n' := by
  intro n' h
  cases cs with
  | nil =>
    cases v with
    | none => rw [fixBranch] at h; exact Option.noConfusion h
    | some w =>
      rw [fixBranch] at h
      injection h with h
      subst h
      exact CanonN.leaf _ _
  | cons i c rest =>
    have hcc : CanonN c := by cases hcan with | cons _ _ _ hc _ _ => exact hc
    cases rest with
    | nil =>
      cases v with
      | none =>
        rw [fixBranch] at h
        injection h with h
        subst h
        exact prependPk_canon pk i c hcc
      | some w =>
        rw [fixBranch] at h
        injection h with h
        subst h
        exact CanonN.branch _ _ _ hcan (Or.inr ⟨rfl, rfl⟩)
    | cons j d r2 =>
      rw [fixBranch] at h
      injection h with h
      subst h
      exact CanonN.branch _ _ _ hcan
        (Or.inl (by rw [kidsLength, kidsLength]; omega))

theorem kidsLB_delK : ∀ (cs : Kids) (i : Nib) (krest : List Nib) (lb : Nib),
    kidsLB cs lb → kidsLB (delK cs i krest) lb
  | .nil, i, krest, lb, h => by
    rw [delK]
    exact h
  | .cons j c rest, i, krest, lb, h => by
    rw [delK]
    by_cases hij : i = j
    · rw [if_pos hij]
      rcases delN c krest with _ | c'
      · exact h.2
      · exact ⟨h.1, h.2⟩
    · rw [if_neg hij]
      exact ⟨h.1, kidsLB_delK rest i krest lb h.2⟩

mutual

/-- Deletion preserves canonical structure. -/
theorem delN_canon (n : TNode) (hcan : CanonN n) (k : List Nib) :
    ∀ n', delN n k = some n' → CanonN n' := by
  intro n' h
  cases n with
  | leaf pk v0 =>
    rw [delN] at h
    by_cases hkpk : k = pk
    · rw [if_pos hkpk] at h
      exact Option.noConfusion h
    · rw [if_neg hkpk] at h
      injection h with h
      subst h
      exact CanonN.leaf _ _
  | branch pk cs v0 =>
    have hck : CanonK cs := by cases hcan with | branch _ _ _ hc _ => exact hc
    rw [delN] at h
    by_cases hpre : k.take pk.length = pk
    · rw [if_pos hpre] at h
      rcases hkd : k.drop pk.length with _ | ⟨i, krest⟩ <;> simp only [hkd] at h
      · exact fixBranch_canon pk cs none hck n' h
      · exact fixBranch_canon pk (delK cs i krest) v0
          (delK_canon cs hck i krest) n' h
    · rw [if_neg hpre] at h
      injection h with h
      subst h
      exact hcan

theorem delK_canon (cs : Kids) (hcan : CanonK cs) (i : Nib)
    (krest : List Nib) : CanonK (delK cs i krest) := by
  cases cs with
  | nil => rw [delK]; exact CanonK.nil
  | cons j c rest =>
    have hcc : CanonN c := by cases hcan with | cons _ _ _ h _ _ => exact h
    have hcrest : CanonK rest := by cases hcan with | cons _ _ _ _ h _ => exact h
    have hlb : kidsLB rest j := by cases hcan with | cons _ _ _ _ _ h => exact h
    rw [delK]
    by_cases hij : i = j
    · rw [if_pos hij]
      rcases hd : delN c krest with _ | c'
      · exact hcrest
      · exact CanonK.cons _ _ _ (delN_canon c hcc krest c' hd) hcrest hlb
    · rw [if_neg hij]
      exact CanonK.cons _ _ _ hcc (delK_canon rest hcrest i krest)
        (kidsLB_delK rest i krest j hlb)

end

/-- The partial key of a node. -/
def pkOf : TNode → List Nib
  | .leaf pk _ => pk
  | .branch pk _ _ => pk

theorem getN_some_take (n : TNode) (k : List Nib) (v : Value)
    (h : getN n k = some v) : k.take (pkOf n).length = pkOf n := by
  cases n with
  | leaf pk v0 =>
    rw [getN_leaf] at h
    by_cases hk : k = pk
    · rw [pkOf, hk]
      simp
    · rw [if_neg hk] at h
      exact Option.noConfusion h
  | branch pk cs v0 =>
    rw [pkOf]
    by_cases hp : k.take pk.length = pk
    · exact hp
    · rw [getN_branch_no_pfx hp] at h
      exact Option.noConfusion h

/-- Every canonical node stores at least one key. -/
theorem canonN_support : ∀ (n : TNode), CanonN n → ∃ k v, getN n k = some v
  | .leaf pk v, _ => ⟨pk, v, by rw [getN_leaf, if_pos rfl]⟩
  | .branch pk cs v, hcan => by
    rcases v with _ | w
    · cases cs with
      | nil =>
        exfalso
        cases hcan with
        | branch _ _ _ _ harity =>
          rcases harity with hh | hh
          · rw [kidsLength] at hh
            omega
          · simp at hh
      | cons i c rest =>
        have hcc : CanonN c := by
          cases hcan with
          | branch _ _ _ hck _ =>
            cases hck with
            | cons _ _ _ hc _ _ => exact hc
        obtain ⟨kc, vc, hk⟩ := canonN_support c hcc
        refine ⟨pk ++ i :: kc, vc, ?_⟩
        simp only [getN_branch_at_append]
        rw [getK, if_pos rfl]
        exact hk
    · exact ⟨pk, w, getN_branch_at_self pk cs (some w)⟩

/-- A canonical branch supports two distinct keys. -/
theorem canon_branch_two_keys (pk : List Nib) (cs : Kids) (v : Option Value)
    (hcan : CanonN (.branch pk cs v)) :
    ∃ k1 k2 w1 w2, getN (.branch pk cs v) k1 = some w1 ∧
      getN (.branch pk cs v) k2 = some w2 ∧ k1 ≠ k2 := by
  have hck : CanonK cs := by cases hcan with | branch _ _ _ h _ => exact h
  have harity : 2 ≤ kidsLength cs ∨ (kidsLength cs = 1 ∧ v.isSome = true) := by
    cases hcan with | branch _ _ _ _ h => exact h
  cases cs with
  | nil =>
    exfalso
    rcases harity with hh | hh
    · rw [kidsLength] at hh
      omega
    · rw [kidsLength] at hh
      omega
  | cons i c rest =>
    have hcc : CanonN c := by cases hck with | cons _ _ _ h _ _ => exact h
    obtain ⟨kc, vc, hkc⟩ := canonN_support c hcc
    have hsup1 : getN (.branch pk (.cons i c rest) v) (pk ++ i :: kc) = some vc := by
      simp only [getN_branch_at_append]
      rw [getK, if_pos rfl]
      exact hkc
    cases rest with
    | nil =>
      rcases v with _ | w
      · exfalso
        rcases harity with hh | hh
        · rw [kidsLength, kidsLength] at hh
          omega
        · simp at hh
      · refine ⟨pk, pk ++ i :: kc, w, vc,
          getN_branch_at_self pk _ (some w), hsup1, ?_⟩
        intro hc
        exact append_cons_ne pk i kc hc.symm
    | cons j d r2 =>
      have hij : i < j := by
        cases hck with | cons _ _ _ _ _ hlb => exact hlb.1
      have hcd : CanonN d := by
        cases hck with
        | cons _ _ _ _ hrest _ =>
          cases hrest with
          | cons _ _ _ h _ _ => exact h
      obtain ⟨kd, vd, hkd⟩ := canonN_support d hcd
      have hsup2 : getN (.branch pk (.cons i c (.cons j d r2)) v)
          (pk ++ j :: kd) = some vd := by
        simp only [getN_branch_at_append]
        rw [getK, if_neg (Fin.ne_of_gt hij), getK, if_pos rfl]
        exact hkd
      refine ⟨pk ++ i :: kc, pk ++ j :: kd, vc, vd, hsup1, hsup2, ?_⟩
      intro hc
      exact absurd ((append_cons_inj pk _ _ _ _).mp hc).1 (Fin.ne_of_lt hij)

/-- No string longer than the partial key is a common prefix of all keys
of a canonical branch. -/
theorem canon_branch_pk_bound (pk : List Nib) (cs : Kids) (v : Option Value)
    (hcan : CanonN (.branch pk cs v)) (q : List Nib)
    (hq : ∀ k' w, getN (.branch pk cs v) k' = some w → k'.take q.length = q) :
    q.length ≤ pk.length := by
  by_contra hlen
  push_neg at hlen
  have hck : CanonK cs := by cases hcan with | branch _ _ _ h _ => exact h
  have harity : 2 ≤ kidsLength cs ∨ (kidsLength cs = 1 ∧ v.isSome = true) := by
    cases hcan with | branch _ _ _ _ h => exact h
  rcases v with _ | w
  · cases cs with
    | nil =>
      rcases harity with hh | hh
      · rw [kidsLength] at hh
        omega
      · simp at hh
    | cons i c rest =>
      cases rest with
      | nil =>
        rcases harity with hh | hh
        · rw [kidsLength, kidsLength] at hh
          omega
        · simp at hh
      | cons j d r2 =>
        have hij : i < j := by
          cases hck with | cons _ _ _ _ _ hlb => exact hlb.1
        have hcc : CanonN c := by cases hck with | cons _ _ _ h _ _ => exact h
        have hcd : CanonN d := by
          cases hck with
          | cons _ _ _ _ hrest _ =>
            cases hrest with
            | cons _ _ _ h _ _ => exact h
        obtain ⟨kc, vc, hkc⟩ := canonN_support c hcc
        obtain ⟨kd, vd, hkd⟩ := canonN_support d hcd
        have hsup1 : getN (.branch pk (.cons i c (.cons j d r2)) none)
            (pk ++ i :: kc) = some vc := by
          simp only [getN_branch_at_append]
          rw [getK, if_pos rfl]
          exact hkc
        have hsup2 : getN (.branch pk (.cons i c (.cons j d r2)) none)
            (pk ++ j :: kd) = some vd := by
          simp only [getN_branch_at_append]
          rw [getK, if_neg (Fin.ne_of_gt hij), getK, if_pos rfl]
          exact hkd
        have h1 := hq _ _ hsup1
        have h2 := hq _ _ hsup2
        have e1 : q[pk.length]? = some i := by
          rw [← h1, List.getElem?_take, if_pos hlen,
            List.getElem?_append_right (le_refl _)]
          simp
        have e2 : q[pk.length]? = some j := by
          rw [← h2, List.getElem?_take, if_pos hlen,
            List.getElem?_append_right (le_refl _)]
          simp
        rw [e1] at e2
        injection e2 with e2
        exact absurd e2 (Fin.ne_of_lt hij)
  · have hself := hq pk w (by rw [getN_branch_at_self])
    have := congrArg List.length hself
    rw [List.length_take] at this
    omega

mutual

/-- Extensionality: two canonical nodes with the same lookup function are
equal. -/
theorem ext_getN (n1 n2 : TNode) (h1 : CanonN n1) (h2 : CanonN n2)
    (h : ∀ k, getN n1 k = getN n2 k) : n1 = n2 := by
  cases n1 with
  | leaf pk1 v1 =>
    cases n2 with
    | leaf pk2 v2 =>
      have hpk1 := h pk1
      rw [getN_leaf, getN_leaf, if_pos rfl] at hpk1
      by_cases hpp : pk1 = pk2
      · rw [if_pos hpp] at hpk1
        injection hpk1 with hv
        rw [hpp, hv]
      · rw [if_neg hpp] at hpk1
        exact Option.noConfusion hpk1
    | branch pk2 cs2 v2 =>
      exfalso
      obtain ⟨k1, k2, w1, w2, hw1, hw2, hne⟩ :=
        canon_branch_two_keys pk2 cs2 v2 h2
      rw [← h k1] at hw1
      rw [← h k2] at hw2
      rw [getN_leaf] at hw1 hw2
      by_cases ha : k1 = pk1
      · by_cases hb : k2 = pk1
        · exact hne (ha.trans hb.symm)
        · rw [if_neg hb] at hw2
          exact Option.noConfusion hw2
      · rw [if_neg ha] at hw1
        exact Option.noConfusion hw1
  | branch pk1 cs1 v1 =>
    cases n2 with
    | leaf pk2 v2 =>
      exfalso
      obtain ⟨k1, k2, w1, w2, hw1, hw2, hne⟩ :=
        canon_branch_two_keys pk1 cs1 v1 h1
      rw [h k1] at hw1
      rw [h k2] at hw2
      rw [getN_leaf] at hw1 hw2
      by_cases ha : k1 = pk2
      · by_cases hb : k2 = pk2
        · exact hne (ha.trans hb.symm)
        · rw [if_neg hb] at hw2
          exact Option.noConfusion hw2
      · rw [if_neg ha] at hw1
        exact Option.noConfusion hw1
    | branch pk2 cs2 v2 =>
      have hle1 : pk2.length ≤ pk1.length :=
        canon_branch_pk_bound pk1 cs1 v1 h1 pk2
          (fun k' w hw => getN_some_take (.branch pk2 cs2 v2) k' w
            (by rw [← h k']; exact hw))
      have hle2 : pk1.length ≤ pk2.length :=
        canon_branch_pk_bound pk2 cs2 v2 h2 pk1
          (fun k' w hw => getN_some_take (.branch pk1 cs1 v1) k' w
            (by rw [h k']; exact hw))
      obtain ⟨k0, w0, hk0⟩ := canonN_support _ h1
      have ht1 : k0.take pk1.length = pk1 := getN_some_take _ k0 w0 hk0
      have ht2 : k0.take pk2.length = pk2 :=
        getN_some_take (.branch pk2 cs2 v2) k0 w0 (by rw [← h k0]; exact hk0)
      have hpk : pk1 = pk2 := by
        have hlen : pk1.length = pk2.length := le_antisymm hle2 hle1
        rw [← ht1, ← ht2, hlen]
      subst hpk
      have hv : v1 = v2 := by
        have hvv := h pk1
        rw [getN_branch_at_self, getN_branch_at_self] at hvv
        exact hvv
      have hkids : ∀ i rest, getK cs1 i rest = getK cs2 i rest := by
        intro i rest
        have hkk := h (pk1 ++ i :: rest)
        simp only [getN_branch_at_append] at hkk
        exact hkk
      have hck1 : CanonK cs1 := by cases h1 with | branch _ _ _ hc _ => exact hc
      have hck2 : CanonK cs2 := by cases h2 with | branch _ _ _ hc _ => exact hc
      rw [hv, ext_getK cs1 cs2 hck1 hck2 hkids]

theorem ext_getK (cs1 cs2 : Kids) (h1 : CanonK cs1) (h2 : CanonK cs2)
    (h : ∀ i rest, getK cs1 i rest = getK cs2 i rest) : cs1 = cs2 := by
  cases cs1 with
  | nil =>
    cases cs2 with
    | nil => rfl
    | cons i2 c2 r2 =>
      exfalso
      have hcc : CanonN c2 := by cases h2 with | cons _ _ _ hc _ _ => exact hc
      obtain ⟨kc, vc, hkc⟩ := canonN_support c2 hcc
      have := h i2 kc
      rw [getK, getK, if_pos rfl, hkc] at this
      exact Option.noConfusion this
  | cons i1 c1 r1 =>
    cases cs2 with
    | nil =>
      exfalso
      have hcc : CanonN c1 := by cases h1 with | cons _ _ _ hc _ _ => exact hc
      obtain ⟨kc, vc, hkc⟩ := canonN_support c1 hcc
      have := h i1 kc
      rw [getK, getK, if_pos rfl, hkc] at this
      exact Option.noConfusion this
    | cons i2 c2 r2 =>
      have hcc1 : CanonN c1 := by cases h1 with | cons _ _ _ hc _ _ => exact hc
      have hcr1 : CanonK r1 := by cases h1 with | cons _ _ _ _ hc _ => exact hc
      have hlb1 : kidsLB r1 i1 := by cases h1 with | cons _ _ _ _ _ hc => exact hc
      have hcc2 : CanonN c2 := by cases h2 with | cons _ _ _ hc _ _ => exact hc
      have hcr2 : CanonK r2 := by cases h2 with | cons _ _ _ _ hc _ => exact hc
      have hlb2 : kidsLB r2 i2 := by cases h2 with | cons _ _ _ _ _ hc => exact hc
      obtain ⟨kc1, vc1, hkc1⟩ := canonN_support c1 hcc1
      obtain ⟨kc2, vc2, hkc2⟩ := canonN_support c2 hcc2
      have hi : i1 = i2 := by
        by_contra hne
        rcases Fin.lt_or_lt_of_ne hne with hlt | hlt
        · have := h i1 kc1
          rw [getK, if_pos rfl, hkc1, getK, if_neg (Fin.ne_of_lt hlt),
            getK_none_of_lb r2 i1 kc1 (kidsLB_of_lt r2 i1 i2 hlt hlb2)] at this
          exact Option.noConfusion this
        · have := h i2 kc2
          rw [getK, if_neg (Fin.ne_of_lt hlt), getK, if_pos rfl, hkc2,
            getK_none_of_lb r1 i2 kc2 (kidsLB_of_lt r1 i2 i1 hlt hlb1)] at this
          exact Option.noConfusion this
      subst hi
      have hc : c1 = c2 := by
        apply ext_getN c1 c2 hcc1 hcc2
        intro rest
        have := h i1 rest
        rw [getK, getK, if_pos rfl, if_pos rfl] at this
        exact this
      have hr : r1 = r2 := by
        apply ext_getK r1 r2 hcr1 hcr2
        intro i rest
        by_cases hi1 : i = i1
        · subst hi1
          rw [getK_none_of_lb r1 i rest hlb1, getK_none_of_lb r2 i rest hlb2]
        · have := h i rest
          rw [getK, getK, if_neg hi1, if_neg hi1] at this
          exact this
      rw [hc, hr]

end

/-- Canonicity at the `Option TNode` level. -/
def CanonT (t : Option TNode) : Prop :=
  ∀ n, t = some n → CanonN n

theorem ext_GetNibs (t1 t2 : Option TNode) (hc1 : CanonT t1) (hc2 : CanonT t2)
    (h : ∀ k, GetNibs t1 k = GetNibs t2 k) : t1 = t2 := by
  cases t1 with
  | none =>
    cases t2 with
    | none => rfl
    | some n2 =>
      exfalso
      obtain ⟨k, v, hk⟩ := canonN_support n2 (hc2 n2 rfl)
      have := h k
      rw [GetNibs, GetNibs, hk] at this
      exact Option.noConfusion this
  | some n1 =>
    cases t2 with
    | none =>
      exfalso
      obtain ⟨k, v, hk⟩ := canonN_support n1 (hc1 n1 rfl)
      have := h k
      rw [GetNibs, GetNibs, hk] at this
      exact Option.noConfusion this
    | some n2 =>
      rw [ext_getN n1 n2 (hc1 n1 rfl) (hc2 n2 rfl)
        (fun k => by have := h k; rw [GetNibs, GetNibs] at this; exact this)]

theorem keyToNibbles_inj : ∀ a b : Key, keyToNibbles a = keyToNibbles b → a = b
  | [], [], _ => rfl
  | [], b :: bs, h => by
    rw [keyToNibbles, keyToNibbles] at h
    exact List.noConfusion h
  | a :: as, [], h => by
    rw [keyToNibbles, keyToNibbles] at h
    exact List.noConfusion h
  | a :: as, b :: bs, h => by
    rw [keyToNibbles, keyToNibbles] at h
    injection h with h1 h
    injection h with h2 h
    have hab : a = b := by
      have e1 : a.val / 16 = b.val / 16 := congrArg Fin.val h1
      have e2 : a.val % 16 = b.val % 16 := congrArg Fin.val h2
      apply Fin.ext
      omega
    rw [hab, keyToNibbles_inj as bs h]

/-- Lexicographic order on byte keys, ordering the canonical entry list. -/
def keyLt : Key → Key → Bool
  | [], [] => false
  | [], _ :: _ => true
  | _ :: _, [] => false
  | a :: as, b :: bs => if a < b then true else if a = b then keyLt as bs else false

/-- Insert or replace a binding, keeping the list sorted by `keyLt`. -/
def entriesPut : List (Key × Value) → Key → Value → List (Key × Value)
  | [], k, v => [(k, v)]
  | (k0, v0) :: rest, k, v =>
    if k = k0 then (k0, v) :: rest
    else if keyLt k k0 then (k, v) :: (k0, v0) :: rest
    else (k0, v0) :: entriesPut rest k v

/-- Remove a binding. -/
def entriesDel (l : List (Key × Value)) (k : Key) : List (Key × Value) :=
  l.filter (fun kv => decide (kv.1 ≠ k))

/-- Look a key up in an entry list. -/
def entriesLookup : List (Key × Value) → Key → Option Value
  | [], _ => none
  | (k0, v0) :: rest, k => if k = k0 then some v0 else entriesLookup rest k

/-- One operation on the abstract entry list. -/
def entryOp (l : List (Key × Value)) : TrieOp → List (Key × Value)
  | .put k v => entriesPut l k v
  | .del k => entriesDel l k

/-- Follows the spec's words: the final key-value set determined by a
sequence of put/delete operations, represented canonically as an entry
list sorted by key. -/
def finalEntries (ops : List TrieOp) : List (Key × Value) :=
  ops.foldl entryOp []

theorem lookup_entriesPut : ∀ (l : List (Key × Value)) (k : Key) (v : Value)
    (k' : Key), entriesLookup (entriesPut l k v) k' =
      if k' = k then some v else entriesLookup l k'
  | [], k, v, k' => by
    simp [entriesPut, entriesLookup]
  | (k0, v0) :: rest, k, v, k' => by
    simp only [entriesPut]
    by_cases hk : k = k0
    · rw [if_pos hk]
      subst hk
      simp only [entriesLookup]
      by_cases hk' : k' = k
      · simp [hk']
      · simp [hk']
    · rw [if_neg hk]
      by_cases hlt : keyLt k k0
      · rw [if_pos hlt]
        simp only [entriesLookup]
      · rw [if_neg hlt]
        simp only [entriesLookup]
        by_cases hk0 : k' = k0
        · have hne : ¬ k0 = k := fun hc => hk hc.symm
          simp [hk0, hne]
        · simp only [hk0, if_false]
          rw [lookup_entriesPut rest k v k']

theorem lookup_entriesDel : ∀ (l : List (Key × Value)) (k k' : Key),
    entriesLookup (entriesDel l k) k' =
      if k' = k then none else entriesLookup l k'
  | [], k, k' => by
    simp [entriesDel, entriesLookup]
  | (k0, v0) :: rest, k, k' => by
    simp only [entriesDel, List.filter_cons]
    by_cases hk0 : k0 = k
    · have hc : (decide ((k0, v0).1 ≠ k)) = false := by simp [hk0]
      rw [hc]
      simp only [Bool.false_eq_true, if_false]
      rw [show (List.filter (fun kv => decide (kv.1 ≠ k)) rest) = entriesDel rest k from rfl,
        lookup_entriesDel rest k k']
      simp only [entriesLookup]
      by_cases hk' : k' = k
      · simp [hk']
      · have hne : ¬ k' = k0 := fun hcc => hk' (hcc.trans hk0)
        simp [hk', hne]
    · have hc : (decide ((k0, v0).1 ≠ k)) = true := by simp [hk0]
      rw [hc]
      simp only [if_true]
      simp only [entriesLookup]
      rw [show (List.filter (fun kv => decide (kv.1 ≠ k)) rest) = entriesDel rest k from rfl,
        lookup_entriesDel rest k k']
      by_cases hk' : k' = k0
      · simp [hk', hk0]
      · simp [hk']

/-- Simulation invariant tying a trie to an abstract entry list: the trie
is canonical, agrees with the list on every byte key, and only stores
keys that are nibble expansions of byte keys. -/
def TrieAbs (t : Option TNode) (l : List (Key × Value)) : Prop :=
  CanonT t ∧
  (∀ bk : Key, Get t bk = entriesLookup l bk) ∧
  (∀ nk : List Nib, GetNibs t nk ≠ none → ∃ bk : Key, nk = keyToNibbles bk)

theorem trieAbs_put (t : Option TNode) (l : List (Key × Value))
    (h : TrieAbs t l) (k : Key) (v : Value) :
    TrieAbs (Put t k v) (entriesPut l k v) := by
  obtain ⟨hcan, hget, hsup⟩ := h
  cases t with
  | none =>
    have hPut : Put (none : Option TNode) k v
        = some (.leaf (keyToNibbles k) v) := rfl
    refine ⟨?_, ?_, ?_⟩
    · intro n hn
      rw [hPut] at hn
      injection hn with hn
      rw [← hn]
      exact CanonN.leaf _ _
    · intro bk
      rw [lookup_entriesPut, Get, hPut, GetNibs, getN_leaf]
      by_cases hbk : bk = k
      · subst hbk
        rw [if_pos rfl, if_pos rfl]
      · rw [if_neg (fun hc => hbk (keyToNibbles_inj _ _ hc)), if_neg hbk, ← hget bk]
        rfl
    · intro nk hne
      rw [hPut, GetNibs, getN_leaf] at hne
      by_cases hnk : nk = keyToNibbles k
      · exact ⟨k, hnk⟩
      · rw [if_neg hnk] at hne
        exact absurd rfl hne
  | some n =>
    have hcn : CanonN n := hcan n rfl
    have hPut : Put (some n) k v = some (putN n (keyToNibbles k) v) := rfl
    refine ⟨?_, ?_, ?_⟩
    · intro m hm
      rw [hPut] at hm
      injection hm with hm
      rw [← hm]
      exact putN_canon n hcn _ v
    · intro bk
      rw [lookup_entriesPut, Get, hPut, GetNibs, get_putN n hcn _ v _]
      by_cases hbk : bk = k
      · subst hbk
        rw [if_pos rfl, if_pos rfl]
      · rw [if_neg (fun hc => hbk (keyToNibbles_inj _ _ hc)), if_neg hbk, ← hget bk]
        rfl
    · intro nk hne
      rw [hPut, GetNibs, get_putN n hcn _ v _] at hne
      by_cases hnk : nk = keyToNibbles k
      · exact ⟨k, hnk⟩
      · rw [if_neg hnk] at hne
        exact hsup nk (by rw [GetNibs]; exact hne)

theorem trieAbs_del (t : Option TNode) (l : List (Key × Value))
    (h : TrieAbs t l) (k : Key) :
    TrieAbs (Delete t k) (entriesDel l k) := by
  obtain ⟨hcan, hget, hsup⟩ := h
  cases t with
  | none =>
    have hDel : Delete (none : Option TNode) k = none := rfl
    refine ⟨?_, ?_, ?_⟩
    · intro n hn
      rw [hDel] at hn
      exact Option.noConfusion hn
    · intro bk
      rw [lookup_entriesDel, hDel]
      by_cases hbk : bk = k
      · rw [if_pos hbk]
        rfl
      · rw [if_neg hbk]
        exact hget bk
    · intro nk hne
      rw [hDel] at hne
      exact absurd rfl hne
  | some n =>
    have hcn : CanonN n := hcan n rfl
    have hDel : Delete (some n) k = delN n (keyToNibbles k) := rfl
    refine ⟨?_, ?_, ?_⟩
    · intro m hm
      rw [hDel] at hm
      exact delN_canon n hcn _ m hm
    · intro bk
      rw [lookup_entriesDel, Get, hDel, get_delN n hcn (keyToNibbles k) _]
      by_cases hbk : bk = k
      · subst hbk
        rw [if_pos rfl, if_pos rfl]
      · rw [if_neg (fun hc => hbk (keyToNibbles_inj _ _ hc)), if_neg hbk, ← hget bk]
        rfl
    · intro nk hne
      rw [hDel, get_delN n hcn (keyToNibbles k) nk] at hne
      by_cases hnk : nk = keyToNibbles k
      · rw [if_pos hnk] at hne
        exact absurd rfl hne
      · rw [if_neg hnk] at hne
        exact hsup nk (by rw [GetNibs]; exact hne)

theorem trieAbs_applyOp (t : Option TNode) (l : List (Key × Value))
    (h : TrieAbs t l) (op : TrieOp) :
    TrieAbs (applyOp t op) (entryOp l op) := by
  cases op with
  | put k v => exact trieAbs_put t l h k v
  | del k => exact trieAbs_del t l h k

theorem trieAbs_foldl (ops : List TrieOp) : ∀ (t : Option TNode)
    (l : List (Key × Value)), TrieAbs t l →
    TrieAbs (ops.foldl applyOp t) (ops.foldl entryOp l) := by
  induction ops with
  | nil =>
    intro t l h
    exact h
  | cons op rest ih =>
    intro t l h
    rw [List.foldl_cons, List.foldl_cons]
    exact ih _ _ (trieAbs_applyOp t l h op)

theorem trieAbs_empty : TrieAbs NewEmptyTrie [] := by
  refine ⟨?_, ?_, ?_⟩
  · intro n hn
    exact Option.noConfusion hn
  · intro bk
    rfl
  · intro nk hne
    exact absurd rfl hne

/-- Every operation sequence from the empty trie is abstracted by its
final entry list. -/
theorem applyOps_abs (ops : List TrieOp) :
    TrieAbs (applyOps ops) (finalEntries ops) :=
  trieAbs_foldl ops NewEmptyTrie [] trieAbs_empty

theorem keyLt_irrefl : ∀ k : Key, keyLt k k = false
  | [] => rfl
  | a :: as => by
    rw [keyLt, if_neg (lt_irrefl a), if_pos rfl, keyLt_irrefl as]

theorem keyLt_trans : ∀ a b c : Key,
    keyLt a b = true → keyLt b c = true → keyLt a c = true
  | [], [], _, hab, _ => by
    rw [keyLt] at hab
    exact Bool.noConfusion hab
  | [], _ :: _, [], _, hbc => by
    rw [keyLt] at hbc
    exact Bool.noConfusion hbc
  | [], _ :: _, _ :: _, _, _ => by
    rw [keyLt]
  | _ :: _, [], _, hab, _ => by
    rw [keyLt] at hab
    exact Bool.noConfusion hab
  | _ :: _, _ :: _, [], _, hbc => by
    rw [keyLt] at hbc
    exact Bool.noConfusion hbc
  | a :: as, b :: bs, c :: cs, hab, hbc => by
    rw [keyLt] at hab hbc
    rw [keyLt]
    have hab2 : a < b ∨ (a = b ∧ keyLt as bs = true) := by
      by_cases h1 : a < b
      · exact Or.inl h1
      · rw [if_neg h1] at hab
        by_cases h2 : a = b
        · rw [if_pos h2] at hab
          exact Or.inr ⟨h2, hab⟩
        · rw [if_neg h2] at hab
          exact Bool.noConfusion hab
    have hbc2 : b < c ∨ (b = c ∧ keyLt bs cs = true) := by
      by_cases h1 : b < c
      · exact Or.inl h1
      · rw [if_neg h1] at hbc
        by_cases h2 : b = c
        · rw [if_pos h2] at hbc
          exact Or.inr ⟨h2, hbc⟩
        · rw [if_neg h2] at hbc
          exact Bool.noConfusion hbc
    rcases hab2 with h1 | ⟨h1, h1r⟩
    · rcases hbc2 with h2 | ⟨h2, h2r⟩
      · rw [if_pos (h1.trans h2)]
      · rw [if_pos (show a < c by rw [← h2]; exact h1)]
    · rcases hbc2 with h2 | ⟨h2, h2r⟩
      · rw [if_pos (show a < c by rw [h1]; exact h2)]
      · have hac : a = c := h1.trans h2
        rw [if_neg (show ¬ a < c by rw [hac]; exact lt_irrefl c), if_pos hac,
          keyLt_trans as bs cs h1r h2r]

theorem keyLt_cases : ∀ a b : Key, a = b ∨ keyLt a b = true ∨ keyLt b a = true
  | [], [] => Or.inl rfl
  | [], _ :: _ => Or.inr (Or.inl (by rw [keyLt]))
  | _ :: _, [] => Or.inr (Or.inr (by rw [keyLt]))
  | a :: as, b :: bs => by
    rcases lt_trichotomy a b with h | h | h
    · exact Or.inr (Or.inl (by rw [keyLt, if_pos h]))
    · subst h
      rcases keyLt_cases as bs with h2 | h2 | h2
      · exact Or.inl (by rw [h2])
      · exact Or.inr (Or.inl (by rw [keyLt, if_neg (lt_irrefl a), if_pos rfl, h2]))
      · exact Or.inr (Or.inr (by rw [keyLt, if_neg (lt_irrefl a), if_pos rfl, h2]))
    · exact Or.inr (Or.inr (by rw [keyLt, if_pos h]))

/-- An entry list sorted strictly by key. -/
abbrev EntriesSorted (l : List (Key × Value)) : Prop :=
  List.Pairwise (fun x y => keyLt x.1 y.1 = true) l

theorem lookup_some_mem : ∀ (l : List (Key × Value)) (k : Key) (v : Value),
    entriesLookup l k = some v → k ∈ l.map Prod.fst
  | [], k, v, h => by
    rw [entriesLookup] at h
    exact Option.noConfusion h
  | (k0, v0) :: rest, k, v, h => by
    rw [entriesLookup] at h
    by_cases hk : k = k0
    · rw [List.map_cons, hk]
      exact List.mem_cons_self _ _
    · rw [if_neg hk] at h
      rw [List.map_cons]
      exact List.mem_cons_of_mem _ (lookup_some_mem rest k v h)

theorem lookup_none_of_not_mem : ∀ (l : List (Key × Value)) (k : Key),
    k ∉ l.map Prod.fst → entriesLookup l k = none
  | [], _, _ => rfl
  | (k0, v0) :: rest, k, h => by
    have hne : ¬ k = k0 := fun he =>
      h (by rw [List.map_cons, he]; exact List.mem_cons_self _ _)
    have hnm : k ∉ rest.map Prod.fst := fun hm =>
      h (by rw [List.map_cons]; exact List.mem_cons_of_mem _ hm)
    rw [entriesLookup, if_neg hne, lookup_none_of_not_mem rest k hnm]

/-- Sorted entry lists are canonical: equal lookups force equal lists. -/
theorem entries_ext : ∀ (l1 l2 : List (Key × Value)), EntriesSorted l1 →
    EntriesSorted l2 → (∀ k, entriesLookup l1 k = entriesLookup l2 k) → l1 = l2
  | [], [], _, _, _ => rfl
  | [], (k2, v2) :: r2, _, _, h => by
    have := h k2
    rw [entriesLookup, entriesLookup, if_pos rfl] at this
    exact Option.noConfusion this
  | (k1, v1) :: r1, [], _, _, h => by
    have := h k1
    rw [entriesLookup, entriesLookup, if_pos rfl] at this
    exact Option.noConfusion this
  | (k1, v1) :: r1, (k2, v2) :: r2, hs1, hs2, h => by
    have hp1 := List.pairwise_cons.mp hs1
    have hp2 := List.pairwise_cons.mp hs2
    have hkeq : k1 = k2 := by
      by_contra hne
      have h1 := h k1
      rw [entriesLookup, entriesLookup, if_pos rfl, if_neg hne] at h1
      obtain ⟨y1, hy1, hy1k⟩ := List.mem_map.mp (lookup_some_mem r2 k1 v1 h1.symm)
      have hlt1 : keyLt k2 k1 = true := by
        rw [← hy1k]
        exact hp2.1 y1 hy1
      have h2 := h k2
      rw [entriesLookup, entriesLookup, if_pos rfl,
        if_neg (fun hc : k2 = k1 => hne hc.symm)] at h2
      obtain ⟨y2, hy2, hy2k⟩ := List.mem_map.mp (lookup_some_mem r1 k2 v2 h2)
      have hlt2 : keyLt k1 k2 = true := by
        rw [← hy2k]
        exact hp1.1 y2 hy2
      have := keyLt_trans k1 k2 k1 hlt2 hlt1
      rw [keyLt_irrefl] at this
      exact Bool.noConfusion this
    subst hkeq
    have hveq : v1 = v2 := by
      have := h k1
      rw [entriesLookup, entriesLookup, if_pos rfl, if_pos rfl] at this
      injection this
    subst hveq
    have hrest : ∀ k, entriesLookup r1 k = entriesLookup r2 k := by
      intro k
      by_cases hk : k = k1
      · subst hk
        have hn1 : entriesLookup r1 k = none := lookup_none_of_not_mem r1 k (fun hm => by
          obtain ⟨y, hy, hyk⟩ := List.mem_map.mp hm
          have hkk : keyLt k k = true := hyk ▸ hp1.1 y hy
          rw [keyLt_irrefl] at hkk
          exact Bool.noConfusion hkk)
        have hn2 : entriesLookup r2 k = none := lookup_none_of_not_mem r2 k (fun hm => by
          obtain ⟨y, hy, hyk⟩ := List.mem_map.mp hm
          have hkk : keyLt k k = true := hyk ▸ hp2.1 y hy
          rw [keyLt_irrefl] at hkk
          exact Bool.noConfusion hkk)
        rw [hn1, hn2]
      · have := h k
        rw [entriesLookup, entriesLookup, if_neg hk, if_neg hk] at this
        exact this
    rw [entries_ext r1 r2 hp1.2 hp2.2 hrest]

theorem mem_keys_entriesPut : ∀ (l : List (Key × Value)) (k : Key) (v : Value)
    (y : Key × Value), y ∈ entriesPut l k v → y.1 = k ∨ y ∈ l
  | [], k, v, y, h => by
    rw [entriesPut] at h
    rw [List.mem_singleton.mp h]
    exact Or.inl rfl
  | (k0, v0) :: rest, k, v, y, h => by
    rw [entriesPut] at h
    by_cases hk : k = k0
    · rw [if_pos hk] at h
      rcases List.mem_cons.mp h with rfl | hm
      · exact Or.inl hk.symm
      · exact Or.inr (List.mem_cons_of_mem _ hm)
    · rw [if_neg hk] at h
      by_cases hlt : keyLt k k0
      · rw [if_pos hlt] at h
        rcases List.mem_cons.mp h with rfl | hm
        · exact Or.inl rfl
        · exact Or.inr hm
      · rw [if_neg hlt] at h
        rcases List.mem_cons.mp h with rfl | hm
        · exact Or.inr (List.mem_cons_self _ _)
        · rcases mem_keys_entriesPut rest k v y hm with h1 | h1
          · exact Or.inl h1
          · exact Or.inr (List.mem_cons_of_mem _ h1)

theorem entriesPut_sorted : ∀ (l : List (Key × Value)) (k : Key) (v : Value),
    EntriesSorted l → EntriesSorted (entriesPut l k v)
  | [], k, v, _ => by
    rw [entriesPut]
    exact List.pairwise_singleton _ _
  | (k0, v0) :: rest, k, v, hs => by
    have hp := List.pairwise_cons.mp hs
    rw [entriesPut]
    by_cases hk : k = k0
    · rw [if_pos hk]
      exact List.pairwise_cons.mpr ⟨hp.1, hp.2⟩
    · rw [if_neg hk]
      by_cases hlt : keyLt k k0
      · rw [if_pos hlt]
        refine List.pairwise_cons.mpr ⟨?_, hs⟩
        intro y hy
        rcases List.mem_cons.mp hy with rfl | hm
        · exact hlt
        · exact keyLt_trans k k0 y.1 hlt (hp.1 y hm)
      · rw [if_neg hlt]
        have hk0k : keyLt k0 k = true := by
          rcases keyLt_cases k k0 with h1 | h1 | h1
          · exact absurd h1 hk
          · exact absurd h1 hlt
          · exact h1
        refine List.pairwise_cons.mpr ⟨?_, entriesPut_sorted rest k v hp.2⟩
        intro y hy
        rcases mem_keys_entriesPut rest k v y hy with h1 | h1
        · rw [h1]
          exact hk0k
        · exact hp.1 y h1

theorem entriesDel_sorted (l : List (Key × Value)) (k : Key)
    (hs : EntriesSorted l) : EntriesSorted (entriesDel l k) :=
  hs.filter _

theorem entryOp_sorted (l : List (Key × Value)) (op : TrieOp)
    (hs : EntriesSorted l) : EntriesSorted (entryOp l op) := by
  cases op with
  | put k v => exact entriesPut_sorted l k v hs
  | del k => exact entriesDel_sorted l k hs

theorem foldl_entryOp_sorted (ops : List TrieOp) : ∀ l : List (Key × Value),
    EntriesSorted l → EntriesSorted (ops.foldl entryOp l) := by
  induction ops with
  | nil =>
    intro l h
    exact h
  | cons op rest ih =>
    intro l h
    rw [List.foldl_cons]
    exact ih _ (entryOp_sorted l op h)

theorem finalEntries_sorted (ops : List TrieOp) :
    EntriesSorted (finalEntries ops) :=
  foldl_entryOp_sorted ops [] List.Pairwise.nil

/-- The canonical entry lists are equal exactly when the final key-value
sets agree pointwise: the equality hypothesis below is set equality. -/
theorem finalEntries_eq_iff (ops1 ops2 : List TrieOp) :
    finalEntries ops1 = finalEntries ops2 ↔
      ∀ bk, entriesLookup (finalEntries ops1) bk
        = entriesLookup (finalEntries ops2) bk := by
  constructor
  · intro h bk
    rw [h]
  · intro h
    exact entries_ext _ _ (finalEntries_sorted ops1) (finalEntries_sorted ops2) h

/-- Modelled from the spec: the two-byte bitmap marking which of the
sixteen child slots of a branch are occupied. -/
def kidsBitmapVal : Kids → Nat
  | .nil => 0
  | .cons i _ rest => 2 ^ i.val + kidsBitmapVal rest

/-- Modelled from the spec: Blake2b-256 is an external primitive; it is
modelled here by a deterministic 32-byte digest of the input bytes. -/
def blake2b256Model (b : Bytes) : Bytes :=
  (List.range 32).map
    (fun i => (b.foldl (fun acc x => (acc * 31 + x + 7) % 4294967296) 0 + i) % 256)

mutual

/-- Modelled from the spec: the node encoding — a header byte carrying
the node variant and partial-key length, the partial key nibbles, for a
branch the child bitmap and the child references, and the value. -/
def encodeNode : TNode → Bytes
  | .leaf pk v => (64 + pk.length) :: (pk.map Fin.val ++ v)
  | .branch pk cs v =>
    ((match v with | none => 128 | some _ => 192) + pk.length) ::
      (pk.map Fin.val ++
        [kidsBitmapVal cs % 256, kidsBitmapVal cs / 256] ++
        encodeKids cs ++
        (match v with | none => [] | some w => w))

/-- Modelled from the spec: child references in index order; a child
encoding shorter than 32 bytes is inlined, otherwise its hash stands in
for it. -/
def encodeKids : Kids → Bytes
  | .nil => []
  | .cons i c rest =>
    (i.val :: (if (encodeNode c).length < 32 then encodeNode c
               else blake2b256Model (encodeNode c))) ++ encodeKids rest

end

/-- Modelled from the spec: `root()` — the Blake2b-256 hash of the root
node's encoding (the root node is always hashed, never inlined), and the
hash of the empty encoding for an empty trie.  Always 32 bytes. -/
def root (t : Option TNode) : Bytes :=
  match t with
  | none => blake2b256Model []
  | some n => blake2b256Model (encodeNode n)

/-- C1: the Merkle root is a pure function of the final key-value set —
any two put/delete sequences on the initially empty trie whose final
entry sets are equal give the identical 32-byte root hash, independently
of insertion order. -/
theorem trie_root_insertion_order_independent (ops1 ops2 : List TrieOp)
    (h : finalEntries ops1 = finalEntries ops2) :
    root (applyOps ops1) = root (applyOps ops2) := by
  obtain ⟨hc1, hg1, hs1⟩ := applyOps_abs ops1
  obtain ⟨hc2, hg2, hs2⟩ := applyOps_abs ops2
  have heq : applyOps ops1 = applyOps ops2 := by
    apply ext_GetNibs _ _ hc1 hc2
    intro nk
    by_cases hbk : ∃ bk : Key, nk = keyToNibbles bk
    · obtain ⟨bk, rfl⟩ := hbk
      have e1 : GetNibs (applyOps ops1) (keyToNibbles bk)
          = entriesLookup (finalEntries ops1) bk := hg1 bk
      have e2 : GetNibs (applyOps ops2) (keyToNibbles bk)
          = entriesLookup (finalEntries ops2) bk := hg2 bk
      rw [e1, e2, h]
    · by_cases h1 : GetNibs (applyOps ops1) nk = none
      · by_cases h2 : GetNibs (applyOps ops2) nk = none
        · rw [h1, h2]
        · exact absurd (hs2 nk h2) hbk
      · exact absurd (hs1 nk h1) hbk
  rw [heq]

/-- A sequence that puts, overwrites and deletes in one order. -/
def opsW1 : List TrieOp :=
  [.put [97] [1], .put [97, 98] [2], .del [97], .put [97] [3]]

/-- A different order (and different intermediate values) with the same
final key-value set. -/
def opsW2 : List TrieOp :=
  [.put [97, 98] [9], .put [97] [3], .put [97, 98] [2]]

theorem trie_root_insertion_order_independent_witness :
    finalEntries opsW1 = finalEntries opsW2 ∧
    root (applyOps opsW1) = root (applyOps opsW2) :=
  ⟨by decide, trie_root_insertion_order_independent opsW1 opsW2 (by decide)⟩

end Trie